import Mathlib

/-!
Verification of the RecipeGenie AI-service core (ai-service/app/utils/preprocessor.py
and ai-service/app/models/recommendation.py) against its natural-language
specification.

Python strings are modelled as `List Char`.  The model covers the ASCII fragment
exactly: `str.lower` is ASCII case folding, and the `unicodedata.normalize('NFKD',
·).encode('ASCII','ignore')` step of `clean_text` is modelled by dropping every
code point ≥ 128 (exact for inputs whose non-ASCII characters have no ASCII
decomposition; every concrete input appearing in a theorem below is pure ASCII).
Python `re` semantics (leftmost match, alternation tried left to right, greedy
`+`, `\b` word boundaries, empty-string replacement) are implemented directly on
character lists.
-/

set_option maxRecDepth 100000

-- Batteries seals rational arithmetic against unfolding; the concrete
-- evaluations below need it unfolded for `decide`.
attribute [local semireducible] Rat.mul Rat.inv Rat.add Rat.sub

namespace RG

/-- A Python `str`, as a list of characters. -/
abbrev LC := List Char

/-- ASCII lower-casing, as `str.lower` acts on the ASCII range. -/
def pyLower (c : Char) : Char :=
  if 65 ≤ c.toNat ∧ c.toNat ≤ 90 then Char.ofNat (c.toNat + 32) else c

/-- The characters matched by Python's `\s` (and stripped by `str.strip()`)
that survive the ASCII filter of `clean_text`: space, `\t`, `\n`, `\v`, `\f`,
`\r` and the separator controls `\x1c`–`\x1f`. -/
def isWsChar (c : Char) : Bool :=
  decide (c.toNat = 32 ∨ (9 ≤ c.toNat ∧ c.toNat ≤ 13) ∨ (28 ≤ c.toNat ∧ c.toNat ≤ 31))

/-- `string.punctuation` with `"-"` removed (the set `clean_text` replaces by a
space): ASCII 33–47 except 45, 58–64, 91–96, 123–126. -/
def isPunctNH (c : Char) : Bool :=
  decide ((33 ≤ c.toNat ∧ c.toNat ≤ 47 ∧ c.toNat ≠ 45) ∨ (58 ≤ c.toNat ∧ c.toNat ≤ 64) ∨
    (91 ≤ c.toNat ∧ c.toNat ≤ 96) ∨ (123 ≤ c.toNat ∧ c.toNat ≤ 126))

/-- ASCII digit, the `\d` of the quantity-stripping regex. -/
def isDigitChar (c : Char) : Bool := decide (48 ≤ c.toNat ∧ c.toNat ≤ 57)

/-- Python `\w` on the ASCII range: letters, digits, underscore.  `\b` in
`re.sub(rf'\b{unit}\b', ...)` separates word characters from the rest. -/
def isWordChar (c : Char) : Bool :=
  decide ((97 ≤ c.toNat ∧ c.toNat ≤ 122) ∨ (65 ≤ c.toNat ∧ c.toNat ≤ 90) ∨
    (48 ≤ c.toNat ∧ c.toNat ≤ 57) ∨ c.toNat = 95)

/-- Worker for `collapseWs`: `inRun` records whether the previous input
character was whitespace whose single replacement space was already emitted. -/
def cwGo : Bool → LC → LC
  | _, [] => []
  | inRun, c :: cs =>
    if isWsChar c then
      if inRun then cwGo true cs else ' ' :: cwGo true cs
    else c :: cwGo false cs

/-- `re.sub(r'\s+', ' ', s)`: every maximal whitespace run becomes one space. -/
def collapseWs (s : LC) : LC := cwGo false s

/-- Remove a trailing whitespace run (keep a character unless everything
after it was dropped and it is itself whitespace). -/
def dropTrailWs : LC → LC
  | [] => []
  | c :: cs =>
    let r := dropTrailWs cs
    if r.isEmpty && isWsChar c then [] else c :: r

/-- `str.strip()`: remove leading and trailing whitespace. -/
def stripWs (s : LC) : LC := dropTrailWs (s.dropWhile isWsChar)

/-- Does `pat` occur verbatim at the head of `s`? -/
def matchAt : LC → LC → Bool
  | [], _ => true
  | _ :: _, [] => false
  | p :: ps, c :: cs => p == c && matchAt ps cs

/-- Python's `pat in s` substring containment. -/
def hasSub (pat : LC) : LC → Bool
  | [] => matchAt pat []
  | c :: cs => matchAt pat (c :: cs) || hasSub pat cs

/-- Worker for `replaceAll`.  The `Nat` fuel only keeps the recursion
structural; any fuel ≥ the list length gives the untruncated scan, since every
step consumes at least one character. -/
def raGo (pat rep : LC) : Nat → LC → LC
  | _, [] => []
  | 0, l => l
  | f + 1, c :: cs =>
    if matchAt pat (c :: cs) && !pat.isEmpty then
      rep ++ raGo pat rep f (cs.drop (pat.length - 1))
    else c :: raGo pat rep f cs

/-- Python `s.replace(pat, rep)`: replace every non-overlapping occurrence,
scanning left to right.  (All patterns used by the source are non-empty; for
`pat = []` we leave the string unchanged.) -/
def replaceAll (pat rep s : LC) : LC := raGo pat rep s.length s

/-- Left `\b` test: position start, or previous character not a word character.
(All vocabulary words begin and end with word characters.) -/
def leftBd : Option Char → Bool
  | none => true
  | some p => !isWordChar p

/-- Right `\b` test against the remainder of the string after the match. -/
def rightBd : LC → Bool
  | [] => true
  | r :: _ => !isWordChar r

/-- Does `re.sub(rf'\b{w}\b', '', ·)` match at this position (`prev` is the
character preceding the position in the original string)? -/
def wwHit (w : LC) (prev : Option Char) (s : LC) : Bool :=
  matchAt w s && leftBd prev && rightBd (s.drop w.length)

/-- Worker for `wwr`: scan with the previous original character; on a match
the scan resumes after the matched word (whose last character `wl` becomes the
new left context, since the replacement is empty but `\b` is judged on the
original string positions).  Fuel as in `raGo`. -/
def wwrGo (w : LC) (wl : Char) : Nat → Option Char → LC → LC
  | _, _, [] => []
  | 0, _, l => l
  | f + 1, prev, c :: cs =>
    if wwHit w prev (c :: cs) then wwrGo w wl f (some wl) (cs.drop (w.length - 1))
    else c :: wwrGo w wl f (some c) cs

/-- `re.sub(rf'\b{w}\b', '', s)` for a non-empty all-word-character `w`. -/
def wwr (w : LC) (s : LC) : LC :=
  if w.isEmpty then s else wwrGo w (w.getLastD ' ') s.length none s

/-- Is there any whole-word occurrence of `w` in `s` (same scan as `wwrGo`)? -/
def hasWWGo (w : LC) : Option Char → LC → Bool
  | _, [] => false
  | prev, c :: cs => wwHit w prev (c :: cs) || hasWWGo w (some c) cs

/-- `re.search(rf'\b{w}\b', s)` is non-trivial: some whole-word occurrence. -/
def hasWW (w : LC) (s : LC) : Bool := hasWWGo w none s

mutual
/-- `re.sub(r'\d+\/\d+|\d+\.\d+|\d+', '', s)`, neutral state: copy characters
until a digit starts a match. -/
def sdMain : LC → LC
  | [] => []
  | c :: cs => if isDigitChar c then sdRun1 cs else c :: sdMain cs
/-- Inside the first digit run (being deleted).  When the run ends, a `/` or
`.` immediately followed by a digit extends the match over a second run
(alternatives 1 and 2 of the pattern); otherwise scanning resumes unchanged. -/
def sdRun1 : LC → LC
  | [] => []
  | c :: cs =>
    if isDigitChar c then sdRun1 cs
    else if c = '/' ∨ c = '.' then
      match cs with
      | [] => [c]
      | d :: rest => if isDigitChar d then sdRun2 rest else c :: d :: sdMain rest
    else c :: sdMain cs
/-- Inside the second digit run (being deleted). -/
def sdRun2 : LC → LC
  | [] => []
  | c :: cs => if isDigitChar c then sdRun2 cs else c :: sdMain cs
end

/-- Quantity stripping: `re.sub(r'\d+\/\d+|\d+\.\d+|\d+', '', s)`. -/
def stripDigits (s : LC) : LC := sdMain s

/-- `clean_text`, from preprocessor.py: lower-case, NFKD-fold to ASCII
(modelled as dropping non-ASCII, see the file comment), replace punctuation
except hyphen by a space, collapse whitespace, strip. -/
def cleanText (s : LC) : LC :=
  if s.isEmpty then []
  else
    stripWs (collapseWs
      (((s.map pyLower).filter (fun c => decide (c.toNat < 128))).map
        (fun c => if isPunctNH c then ' ' else c)))

/-- The `UNITS` table of preprocessor.py, in declaration order. -/
def UNITS : List LC :=
  (["cup", "cups", "tablespoon", "tablespoons", "tbsp", "teaspoon", "teaspoons",
    "tsp", "ounce", "ounces", "oz", "pound", "pounds", "lb", "lbs", "gram",
    "grams", "g", "kilogram", "kilograms", "kg", "ml", "milliliter",
    "milliliters", "liter", "liters", "pinch", "pinches", "dash", "dashes",
    "piece", "pieces", "slice", "slices", "bunch", "bunches", "clove", "cloves",
    "sprig", "sprigs", "stalk", "stalks"]).map (fun s => s.data)

/-- `INGREDIENT_SUBSTITUTIONS`, in dict-declaration order. -/
def SUBS : List (LC × LC) :=
  ([("tomatoes", "tomato"), ("onions", "onion"), ("potatoes", "potato"),
    ("carrots", "carrot"), ("fresh garlic", "garlic"), ("minced garlic", "garlic"),
    ("garlic cloves", "garlic"), ("olive oil", "oil"), ("vegetable oil", "oil"),
    ("canola oil", "oil"), ("bell peppers", "bell pepper"),
    ("red pepper", "bell pepper"), ("green pepper", "bell pepper")]).map
    (fun p => (p.1.data, p.2.data))

/-- The `cooking_terms` list of `normalize_ingredient`. -/
def COOKING : List LC :=
  (["fresh", "chopped", "diced", "minced", "sliced", "grated", "crushed",
    "peeled", "cubed", "julienned", "frozen", "canned", "dried"]).map
    (fun s => s.data)

/-- First alternative of the boilerplate pattern: `to taste`. -/
def BP1 : LC := "to taste".data
/-- Second alternative: `as needed`. -/
def BP2 : LC := "as needed".data
/-- Third alternative: `for serving`. -/
def BP3 : LC := "for serving".data
/-- Fourth alternative: `for garnish`. -/
def BP4 : LC := "for garnish".data

/-- Worker for `bpStrip`, fuel as in `raGo`: at each position the alternatives
are tried in pattern order; a match is deleted and scanning resumes after it. -/
def bpGo : Nat → LC → LC
  | _, [] => []
  | 0, l => l
  | f + 1, c :: cs =>
    if matchAt BP1 (c :: cs) then bpGo f (cs.drop (BP1.length - 1))
    else if matchAt BP2 (c :: cs) then bpGo f (cs.drop (BP2.length - 1))
    else if matchAt BP3 (c :: cs) then bpGo f (cs.drop (BP3.length - 1))
    else if matchAt BP4 (c :: cs) then bpGo f (cs.drop (BP4.length - 1))
    else c :: bpGo f cs

/-- `re.sub(r'to taste|as needed|for serving|for garnish', '', s)`. -/
def bpStrip (s : LC) : LC := bpGo s.length s

/-- One step of the substitution loop: `if original in s: s = s.replace(original,
replacement)`. -/
def substStep (s : LC) (kv : LC × LC) : LC :=
  if hasSub kv.1 s then replaceAll kv.1 kv.2 s else s

/-- `normalize_ingredient`, from preprocessor.py: clean, strip quantities,
strip units (whole word), apply the substitution table (substring containment,
table order), strip cooking adjectives (whole word), strip boilerplate
phrases, collapse whitespace and trim. -/
def normalizeIngredient (s : LC) : LC :=
  if s.isEmpty then []
  else
    let c1 := cleanText s
    let c2 := stripDigits c1
    let c3 := UNITS.foldl (fun t u => wwr u t) c2
    let c4 := SUBS.foldl substStep c3
    let c5 := COOKING.foldl (fun t u => wwr u t) c4
    let c6 := bpStrip c5
    stripWs (collapseWs c6)

/-- Order-preserving deduplication (the `seen` set of `preprocess_ingredients`). -/
def dedupKeep (seen : List LC) : List LC → List LC
  | [] => []
  | x :: xs => if seen.contains x then dedupKeep seen xs else x :: dedupKeep (x :: seen) xs

/-- The per-string core of `preprocess_ingredients`: normalize each element,
keep results of length > 1, deduplicate preserving first-seen order. -/
def preprocessList (ls : List LC) : List LC :=
  dedupKeep [] ((ls.map normalizeIngredient).filter (fun n => decide (1 < n.length)))

/-! ## Dynamic values and dictionaries

Recipe records are Python dicts with open schema; values are dynamically
typed.  `Val.nan` is the float NaN that pandas uses to fill missing cells (it
is truthy, unlike `Val.none`). -/

inductive Val where
  | str (s : LC)
  | int (n : ℤ)
  | float (q : ℚ)
  | bool (b : Bool)
  | list (l : List Val)
  | none
  | nan

mutual
/-- Decidable equality of dynamic values (hand-rolled: `deriving` does not
handle the nesting). -/
def valDecEq : (a b : Val) → Decidable (a = b)
  | .str a, .str b =>
    match decEq a b with
    | isTrue h => isTrue (by rw [h])
    | isFalse h => isFalse (fun hh => h (by injection hh))
  | .str _, .int _ => isFalse (fun h => by cases h)
  | .str _, .float _ => isFalse (fun h => by cases h)
  | .str _, .bool _ => isFalse (fun h => by cases h)
  | .str _, .list _ => isFalse (fun h => by cases h)
  | .str _, .none => isFalse (fun h => by cases h)
  | .str _, .nan => isFalse (fun h => by cases h)
  | .int _, .str _ => isFalse (fun h => by cases h)
  | .int a, .int b =>
    match decEq a b with
    | isTrue h => isTrue (by rw [h])
    | isFalse h => isFalse (fun hh => h (by injection hh))
  | .int _, .float _ => isFalse (fun h => by cases h)
  | .int _, .bool _ => isFalse (fun h => by cases h)
  | .int _, .list _ => isFalse (fun h => by cases h)
  | .int _, .none => isFalse (fun h => by cases h)
  | .int _, .nan => isFalse (fun h => by cases h)
  | .float _, .str _ => isFalse (fun h => by cases h)
  | .float _, .int _ => isFalse (fun h => by cases h)
  | .float a, .float b =>
    match decEq a b with
    | isTrue h => isTrue (by rw [h])
    | isFalse h => isFalse (fun hh => h (by injection hh))
  | .float _, .bool _ => isFalse (fun h => by cases h)
  | .float _, .list _ => isFalse (fun h => by cases h)
  | .float _, .none => isFalse (fun h => by cases h)
  | .float _, .nan => isFalse (fun h => by cases h)
  | .bool _, .str _ => isFalse (fun h => by cases h)
  | .bool _, .int _ => isFalse (fun h => by cases h)
  | .bool _, .float _ => isFalse (fun h => by cases h)
  | .bool a, .bool b =>
    match decEq a b with
    | isTrue h => isTrue (by rw [h])
    | isFalse h => isFalse (fun hh => h (by injection hh))
  | .bool _, .list _ => isFalse (fun h => by cases h)
  | .bool _, .none => isFalse (fun h => by cases h)
  | .bool _, .nan => isFalse (fun h => by cases h)
  | .list _, .str _ => isFalse (fun h => by cases h)
  | .list _, .int _ => isFalse (fun h => by cases h)
  | .list _, .float _ => isFalse (fun h => by cases h)
  | .list _, .bool _ => isFalse (fun h => by cases h)
  | .list a, .list b =>
    match valListDecEq a b with
    | isTrue h => isTrue (by rw [h])
    | isFalse h => isFalse (fun hh => h (by injection hh))
  | .list _, .none => isFalse (fun h => by cases h)
  | .list _, .nan => isFalse (fun h => by cases h)
  | .none, .str _ => isFalse (fun h => by cases h)
  | .none, .int _ => isFalse (fun h => by cases h)
  | .none, .float _ => isFalse (fun h => by cases h)
  | .none, .bool _ => isFalse (fun h => by cases h)
  | .none, .list _ => isFalse (fun h => by cases h)
  | .none, .none => isTrue rfl
  | .none, .nan => isFalse (fun h => by cases h)
  | .nan, .str _ => isFalse (fun h => by cases h)
  | .nan, .int _ => isFalse (fun h => by cases h)
  | .nan, .float _ => isFalse (fun h => by cases h)
  | .nan, .bool _ => isFalse (fun h => by cases h)
  | .nan, .list _ => isFalse (fun h => by cases h)
  | .nan, .none => isFalse (fun h => by cases h)
  | .nan, .nan => isTrue rfl
/-- Decidable equality for lists of dynamic values. -/
def valListDecEq : (a b : List Val) → Decidable (a = b)
  | [], [] => isTrue rfl
  | [], _ :: _ => isFalse (fun h => by cases h)
  | _ :: _, [] => isFalse (fun h => by cases h)
  | a :: as, b :: bs =>
    match valDecEq a b, valListDecEq as bs with
    | isTrue h1, isTrue h2 => isTrue (by rw [h1, h2])
    | isFalse h1, _ => isFalse (fun h => by injection h with hh _; exact h1 hh)
    | isTrue _, isFalse h2 => isFalse (fun h => by injection h with _ hh; exact h2 hh)
end

instance : DecidableEq Val := valDecEq

/-- Python truthiness. -/
def truthy : Val → Bool
  | .str s => !s.isEmpty
  | .int n => decide (n ≠ 0)
  | .float q => decide (q ≠ 0)
  | .bool b => b
  | .list l => !l.isEmpty
  | .none => false
  | .nan => true

mutual
/-- Python `str(v)`.  Exact for strings, ints, bools, integral floats, `None`
and NaN — the only cases reached by the claims; for non-integral floats and
lists the rendering is a fixed deterministic stand-in (Python's exact `repr`
formatting of those is not needed by any claim). -/
def pyStr : Val → LC
  | .str s => s
  | .int n => (toString n).data
  | .float q =>
    if q.den = 1 then (toString q.num).data ++ (".0").data
    else (toString q.num).data ++ '/' :: (toString q.den).data
  | .bool b => if b then ("True").data else ("False").data
  | .list l => '[' :: pyStrJoin l ++ [']']
  | .none => ("None").data
  | .nan => ("nan").data
/-- Comma-joined renderings of list elements. -/
def pyStrJoin : List Val → LC
  | [] => []
  | [x] => pyStr x
  | x :: y :: t => pyStr x ++ ',' :: ' ' :: pyStrJoin (y :: t)
end

/-- Python `s.lower()` on a whole string (ASCII model). -/
def lowerStr (s : LC) : LC := s.map pyLower

/-- A Python dict with string keys, in insertion order. -/
abbrev Dict := List (String × Val)

/-- `d[k]` / `d.get(k)`. -/
def dget (d : Dict) (k : String) : Option Val := (d.find? (fun p => p.1 == k)).map (fun p => p.2)

/-- `k in d`. -/
def dmem (d : Dict) (k : String) : Bool := (d.find? (fun p => p.1 == k)).isSome

/-- `d[k] = v`: update in place if the key exists, else append (dict insertion
order semantics). -/
def dset (d : Dict) (k : String) (v : Val) : Dict :=
  match d with
  | [] => [(k, v)]
  | p :: t => if p.1 == k then (k, v) :: t else p :: dset t k v

/-- The single error class the model needs: every Python exception the code
can raise and catch is represented by this token. -/
inductive PyErr where
  | typeError
deriving DecidableEq

/-- `for x in v`: lists iterate their elements, strings iterate their
characters, everything else raises `TypeError`. -/
def pyIter : Val → Except PyErr (List Val)
  | .list l => .ok l
  | .str s => .ok (s.map (fun c => Val.str [c]))
  | _ => .error .typeError

/-- `len(v)` for the types that support it. -/
def pyLen : Val → Except PyErr ℕ
  | .list l => .ok l.length
  | .str s => .ok s.length
  | _ => .error .typeError

/-- `int(q)` for `q ≥ 0` style truncation toward zero. -/
def pyInt (q : ℚ) : ℤ := if 0 ≤ q then q.floor else q.ceil

/-- Dict keys used by the source. -/
def kIngredients : String := "ingredients"
/-- The `title` key. -/
def kTitle : String := "title"
/-- The `instructions` key. -/
def kInstructions : String := "instructions"
/-- The `tags` key. -/
def kTags : String := "tags"
/-- The `cuisine` key. -/
def kCuisine : String := "cuisine"
/-- The `id` key. -/
def kId : String := "id"
/-- The `popularity` key. -/
def kPopularity : String := "popularity"
/-- The `complexity` key. -/
def kComplexity : String := "complexity"
/-- The `cooking_time_minutes` key. -/
def kCookingTime : String := "cooking_time_minutes"
/-- The `estimated_time` key. -/
def kEstimatedTime : String := "estimated_time"
/-- The `normalized_ingredients` key. -/
def kNormalized : String := "normalized_ingredients"
/-- The `recipe_hash` key. -/
def kRecipeHash : String := "recipe_hash"

/-- `preprocess_ingredients` lifted to a dynamic value (the code is called
with `recipe['ingredients']`, whatever that holds).  Falsy input returns `[]`;
the body iterates the value inside a catch-all `try` whose `except` returns
the original input unchanged; `normalize_ingredient` itself is total. -/
def preprocessVal (v : Val) : Val :=
  if !truthy v then Val.list []
  else
    match pyIter v with
    | .error _ => v
    | .ok items => Val.list ((preprocessList (items.map pyStr)).map Val.str)

/-- A sentence terminator of `re.split(r'[.!?]+', ·)`. -/
def termChar (c : Char) : Bool := c == '.' || c == '!' || c == '?'

mutual
/-- `re.split(r'[.!?]+', s)`: accumulate the current segment (reversed). -/
def stGo (cur : LC) : LC → List LC
  | [] => [cur.reverse]
  | c :: cs => if termChar c then cur.reverse :: stSkip cs else stGo (c :: cur) cs
/-- Inside a terminator run: skip further terminators, then start the next
segment (a trailing run yields a final empty segment, as `re.split` does). -/
def stSkip : LC → List LC
  | [] => [[]]
  | c :: cs => if termChar c then stSkip cs else stGo [c] cs
end

/-- The segments `re.split(r'[.!?]+', s)` produces. -/
def splitSentences (s : LC) : List LC := stGo [] s

/-- The step-count contribution to `complexity_score` (lines 180–189): never
raises — element count for a list, sentence-terminator segments of `str(...)`
otherwise. -/
def scPart (r : Dict) : ℚ :=
  match dget r kInstructions with
  | some v =>
    if truthy v then
      match v with
      | .list l => min ((l.length : ℚ) / 10) 1 * (1 / 2)
      | w => min (((splitSentences (pyStr w)).length : ℚ) / 10) 1 * (1 / 2)
    else 0
  | Option.none => 0

/-- The raw `complexity_score` accumulator of `enrich_recipe_data` (lines
172–189): ingredient-count term plus step-count term; `len` of a non-sized
truthy `ingredients` value raises. -/
def complexityE (r : Dict) : Except PyErr ℚ :=
  match dget r kIngredients with
  | some v =>
    if truthy v then
      match pyLen v with
      | .ok n => .ok (min ((n : ℚ) / 15) 1 * (1 / 2) + scPart r)
      | .error e => .error e
    else .ok (scPart r)
  | Option.none => .ok (scPart r)

/-- `' '.join`. -/
def joinSp : List LC → LC
  | [] => []
  | [x] => x
  | x :: y :: t => x ++ ' ' :: joinSp (y :: t)

/-- Insertion into the `tags` set.  CPython's set iteration order is
implementation defined; the model fixes insertion order (no claim depends on
the order of generated tags). -/
def tagSetAdd (ts : List LC) (t : LC) : List LC :=
  if ts.contains t then ts else ts ++ [t]

/-- `meat_ingredients` of `generate_tags`. -/
def MEATS : List LC :=
  (["chicken", "beef", "pork", "lamb", "turkey", "fish", "salmon", "tuna",
    "shrimp", "bacon", "ham", "sausage"]).map (fun s => s.data)

/-- `animal_products` of `generate_tags`. -/
def ANIMAL : List LC :=
  (["milk", "cheese", "cream", "yogurt", "butter", "egg", "honey", "mayo",
    "mayonnaise"]).map (fun s => s.data)

/-- Breakfast keywords. -/
def KW_BREAKFAST : List LC :=
  (["breakfast", "pancake", "oatmeal", "cereal"]).map (fun s => s.data)
/-- Lunch keywords. -/
def KW_LUNCH : List LC := (["sandwich", "wrap", "salad"]).map (fun s => s.data)
/-- Dinner keywords. -/
def KW_DINNER : List LC := (["dinner", "roast", "steak"]).map (fun s => s.data)
/-- Dessert keywords. -/
def KW_DESSERT : List LC :=
  (["dessert", "cake", "cookie", "sweet", "chocolate", "ice cream"]).map (fun s => s.data)
/-- Grilled keywords. -/
def KW_GRILL : List LC := (["grill", "grilled", "bbq", "barbecue"]).map (fun s => s.data)
/-- Baked keywords. -/
def KW_BAKE : List LC := (["bake", "baked", "roast", "roasted"]).map (fun s => s.data)
/-- Fried keywords. -/
def KW_FRY : List LC := (["fry", "fried", "deep fried"]).map (fun s => s.data)

/-- `cuisine_keywords` of `generate_tags`, in dict order. -/
def CUISINE_KW : List (LC × List LC) :=
  [(("italian").data, (["pasta", "pizza", "risotto", "italian"]).map (fun s => s.data)),
   (("mexican").data, (["taco", "burrito", "quesadilla", "mexican", "salsa"]).map (fun s => s.data)),
   (("asian").data, (["stir fry", "tofu", "soy sauce", "asian"]).map (fun s => s.data)),
   (("indian").data, (["curry", "masala", "indian"]).map (fun s => s.data)),
   (("mediterranean").data, (["mediterranean", "greek", "feta", "olive"]).map (fun s => s.data))]

/-- `generate_tags`, from preprocessor.py.  Raises only if the recipe's
`ingredients` value is truthy yet not iterable (the `' '.join` generator). -/
def generateTagsE (r : Dict) : Except PyErr (List LC) :=
  match pyIter ((dget r kIngredients).getD (Val.list [])) with
  | .error e => .error e
  | .ok items =>
  let hay := lowerStr (pyStr ((dget r kTitle).getD (Val.str [])) ++ ' ' :: joinSp (items.map pyStr))
  let t1 :=
    match dget r kCuisine with
    | some v => if truthy v then tagSetAdd [] (stripWs (pyStr v)) else []
    | Option.none => []
  let t2 :=
    if !(MEATS.any (fun m => hasSub m hay)) then
      let ta := tagSetAdd t1 (("vegetarian").data)
      if !(ANIMAL.any (fun m => hasSub m hay)) then tagSetAdd ta (("vegan").data) else ta
    else t1
  let t3 :=
    if KW_BREAKFAST.any (fun m => hasSub m hay) then tagSetAdd t2 (("breakfast").data)
    else if KW_LUNCH.any (fun m => hasSub m hay) then tagSetAdd t2 (("lunch").data)
    else if KW_DINNER.any (fun m => hasSub m hay) then tagSetAdd t2 (("dinner").data)
    else t2
  let t4 := if KW_DESSERT.any (fun m => hasSub m hay) then tagSetAdd t3 (("dessert").data) else t3
  let t5 :=
    if KW_GRILL.any (fun m => hasSub m hay) then tagSetAdd t4 (("grilled").data)
    else if KW_BAKE.any (fun m => hasSub m hay) then tagSetAdd t4 (("baked").data)
    else if KW_FRY.any (fun m => hasSub m hay) then tagSetAdd t4 (("fried").data)
    else t4
  let t6 := CUISINE_KW.foldl
    (fun ts ck => if ck.2.any (fun m => hasSub m hay) then tagSetAdd ts ck.1 else ts) t5
  .ok t6

/-- One recipe's pass through the body of `enrich_recipe_data`'s `for` loop.
`ph` is CPython's per-process `hash` on strings (any fixed function; theorems
quantify over it).  The returned `Except` is the exception flow into the
function-level `try`. -/
def enrichOneE (ph : LC → ℤ) (r : Dict) : Except PyErr Dict :=
  -- 1. normalized_ingredients (its own try/except falls back to the raw
  -- value, but `preprocess_ingredients` never raises, having its own
  -- catch-all, so the assignment is always the preprocessed value)
  let e1 :=
    match dget r kIngredients with
    | some v => if truthy v then dset r kNormalized (preprocessVal v) else r
    | Option.none => r
  -- 2. complexity (no per-field handler: `len` on a bad value escapes)
  match complexityE r with
  | .error e => .error e
  | .ok cx =>
    let e2 := dset e1 kComplexity (Val.float (min cx 1))
    -- 3. cooking time estimate
    let est := dset (dset e2 kCookingTime (Val.int (pyInt (20 + cx * 40)))) kEstimatedTime
      (Val.bool true)
    let e3 :=
      match dget r kCookingTime with
      | some v => if truthy v then e2 else est
      | Option.none => est
    -- 4. tags
    let e4E : Except PyErr Dict :=
      match dget r kTags with
      | some v =>
        if truthy v then .ok e3
        else
          match generateTagsE r with
          | .error e => .error e
          | .ok ts => .ok (dset e3 kTags (Val.list (ts.map Val.str)))
      | Option.none =>
        match generateTagsE r with
        | .error e => .error e
        | .ok ts => .ok (dset e3 kTags (Val.list (ts.map Val.str)))
    match e4E with
    | .error e => .error e
    | .ok e4 =>
      -- 5. recipe_hash (gated on key presence only)
      if dmem r kIngredients && dmem r kTitle then
        match pyIter ((dget r kIngredients).getD Val.none) with
        | .error e => .error e
        | .ok items =>
          let istr := joinSp (items.map pyStr)
          let hi := pyStr ((dget r kTitle).getD (Val.str [])) ++ istr
          .ok (dset e4 kRecipeHash (Val.str (toString (ph hi)).data))
      else .ok e4

/-- `enrich_recipe_data`: empty input short-circuits; the whole loop runs in
one `try` whose `except` returns the original list unchanged. -/
def enrichRecipeData (ph : LC → ℤ) (recipes : List Dict) : List Dict :=
  if recipes.isEmpty then []
  else
    match recipes.mapM (enrichOneE ph) with
    | .ok l => l
    | .error _ => recipes

/-- A concrete instance of the process hash, for closed counterexamples. -/
def pyHash0 : LC → ℤ := fun _ => 0

/-! ## The recommender (recommendation.py) -/

/-- Numeric view of a value, for Python's cross-type numeric `==` and for
arithmetic (`True == 1`, `1 == 1.0`). -/
def numView : Val → Option ℚ
  | .int n => some (n : ℚ)
  | .float q => some q
  | .bool b => some (if b then 1 else 0)
  | _ => Option.none

mutual
/-- Python `==` on dynamic values (NaN compares unequal to itself). -/
def pyEq (a b : Val) : Bool :=
  match numView a, numView b with
  | some x, some y => x == y
  | _, _ =>
    match a, b with
    | .str x, .str y => x == y
    | .list x, .list y => pyEqList x y
    | .none, .none => true
    | _, _ => false
/-- Elementwise Python `==` on lists. -/
def pyEqList : List Val → List Val → Bool
  | [], [] => true
  | a :: as, b :: bs => pyEq a b && pyEqList as bs
  | _, _ => false
end

/-- Read a cell as a number.  NaN (a missing cell in a partially populated
pandas column) and non-numeric values are modelled as an error: the real
DataFrame would propagate NaN into every score; no claim exercises that
regime, and the theorems below hypothesise fully populated numeric columns. -/
def toNumE : Val → Except PyErr ℚ := fun v =>
  match numView v with
  | some q => .ok q
  | Option.none => .error .typeError

/-- `_calculate_ingredient_match`.  `uIngs` is the caller's ingredient list
(always an actual list in `recommend`, so the `isinstance(str)` wrap of the
user side is never taken); a string recipe-`ingredients` value is wrapped in a
one-element list, any other non-list truthy value raises on iteration. -/
def calcMatch (rIngs : Val) (uIngs : List Val) : Except PyErr ℚ :=
  if !truthy rIngs || uIngs.isEmpty then .ok 0
  else do
    let rl : List Val ←
      match rIngs with
      | .str s => pure [Val.str s]
      | .list l => pure l
      | _ => throw .typeError
    let rlow := rl.map (fun v => lowerStr (pyStr v))
    let ulow := uIngs.map (fun v => lowerStr (pyStr v))
    let matched := rlow.countP (fun ri => ulow.any (fun u => hasSub u ri))
    let total := rl.length
    if total = 0 then pure 0
    else
      let mp : ℚ := (matched : ℚ) / (total : ℚ)
      let mp := if (4 : ℚ) / 5 < mp then mp * (6 / 5) else mp
      pure (min mp 1)

/-- One `past_interactions` element: a dict with optional `recipe_id` and
`rating`. -/
structure Interaction where
  recipe_id : Option Val
  rating : Option Val

/-- A user-preference record (`UserPreferences`): each key optional, as in the
source's `'key' in user_preferences` checks. -/
structure Prefs where
  favorites : Option (List Val)
  dietary_restrictions : Option (List Val)
  cuisine_preferences : Option (List Val)
  past_interactions : Option (List Interaction)

/-- `[tag.lower() for tag in ...]`: every tag must be a string. -/
def lowTags : List Val → Except PyErr (List LC)
  | [] => .ok []
  | Val.str s :: rest =>
    match lowTags rest with
    | .ok ts => .ok (lowerStr s :: ts)
    | .error e => .error e
  | _ :: _ => .error .typeError

/-- The dietary-restriction loop: `-0.7` for each restriction (a string, else
`AttributeError`) whose lowercase form is among the lowered tags. -/
def dietFold (rtags : List LC) : ℚ → List Val → Except PyErr ℚ
  | acc, [] => .ok acc
  | acc, Val.str s :: rest =>
    dietFold rtags (if rtags.contains (lowerStr s) then acc - 7 / 10 else acc) rest
  | _, _ :: _ => .error .typeError

/-- The dietary-restriction contribution: runs only when the `preferences`
have `dietary_restrictions` and the row has a `tags` column. -/
def dietPart (row : Dict) (p : Prefs) : Except PyErr ℚ :=
  match p.dietary_restrictions, dget row kTags with
  | some drs, some tv =>
    match
      (if truthy tv then
        match pyIter tv with
        | .error e => .error e
        | .ok items => lowTags items
      else (.ok [] : Except PyErr (List LC))) with
    | .error e => .error e
    | .ok rtags => dietFold rtags 0 drs
  | _, _ => .ok 0

/-- The past-interaction loop: `(rating / 5.0) * 0.8` for each interaction
whose `recipe_id` matches under string coercion and that has a `rating`
(which must be numeric, else `TypeError` on the division). -/
def ratFold (rid : LC) : ℚ → List Interaction → Except PyErr ℚ
  | acc, [] => .ok acc
  | acc, i :: rest =>
    if pyStr (i.recipe_id.getD (Val.str [])) == rid then
      match i.rating with
      | some rv =>
        match numView rv with
        | some q => ratFold rid (acc + q / 5 * (4 / 5)) rest
        | Option.none => .error .typeError
      | Option.none => ratFold rid acc rest
    else ratFold rid acc rest

/-- The past-interaction contribution. -/
def ratPart (rid : LC) (p : Prefs) : Except PyErr ℚ :=
  match p.past_interactions with
  | some ins => ratFold rid 0 ins
  | Option.none => .ok 0

/-- `_calculate_preference_score` for one row. -/
def prefScoreE (row : Dict) (p : Prefs) : Except PyErr ℚ :=
  let rid := pyStr ((dget row kId).getD (Val.str []))
  let s1 : ℚ :=
    match p.favorites with
    | some favs => if (favs.map pyStr).contains rid then 1 else 0
    | Option.none => 0
  let s2 : ℚ :=
    match p.cuisine_preferences, dget row kCuisine with
    | some cps, some cv => if cps.any (fun c => pyEq cv c) then 1 / 2 else 0
    | _, _ => 0
  match dietPart row p with
  | .error e => .error e
  | .ok s3 =>
    match ratPart rid p with
    | .error e => .error e
    | .ok s4 => .ok (max (s1 + s2 + s3 + s4) 0)

/-- `abs` on ℚ, written out so the kernel evaluates it. -/
def qAbs (q : ℚ) : ℚ := if q < 0 then -q else q

/-- Does the DataFrame built from `rs` have column `k` (some record carries
the key)? -/
def hasColumn (rs : List Dict) (k : String) : Bool := rs.any (fun r => dmem r k)

/-- `Series.max` of a numeric column (callers pass non-empty columns). -/
def colMaxQ : List ℚ → ℚ
  | [] => 0
  | h :: t => t.foldl max h

/-- The batch normalization `col = col / col.max()` guarded by
`col.max() > 0`. -/
def normColumn (l : List ℚ) : List ℚ :=
  if 0 < colMaxQ l then l.map (fun q => q / colMaxQ l) else l

/-- A scored row before sorting: the original record plus the per-signal
columns that were computed and the accumulated `ai_relevance_score`. -/
structure SR where
  row : Dict
  score : ℚ
  im : Option ℚ
  ps : Option ℚ
  np : Option ℚ
  cx : Option ℚ

/-- Step 1 of `recommend`: the normalized `ingredient_match_score` column,
when the ingredient context is non-empty and the column exists. -/
def imColE (rs : List Dict) (ings : List Val) : Except PyErr (Option (List ℚ)) :=
  if !ings.isEmpty && hasColumn rs kIngredients then
    match rs.mapM (fun r => calcMatch ((dget r kIngredients).getD Val.nan) ings) with
    | .error e => .error e
    | .ok raw => .ok (some (normColumn raw))
  else .ok Option.none

/-- Step 2: the normalized `preference_score` column, when preferences are
truthy and carry a `favorites` key. -/
def psColE (rs : List Dict) (prefs : Option Prefs) : Except PyErr (Option (List ℚ)) :=
  match prefs with
  | some p =>
    match p.favorites with
    | some _ =>
      match rs.mapM (fun r => prefScoreE r p) with
      | .error e => .error e
      | .ok raw => .ok (some (normColumn raw))
    | Option.none => .ok Option.none
  | Option.none => .ok Option.none

/-- Step 3: `normalized_popularity`, created (and contributing) only when the
column exists and its maximum is positive. -/
def npColE (rs : List Dict) : Except PyErr (Option (List ℚ)) :=
  if hasColumn rs kPopularity then
    match rs.mapM (fun r => toNumE ((dget r kPopularity).getD Val.nan)) with
    | .error e => .error e
    | .ok vals =>
      .ok (if 0 < colMaxQ vals then some (vals.map (fun q => q / colMaxQ vals))
        else Option.none)
  else .ok Option.none

/-- Step 4: `complexity_score = 1 - |complexity - 0.5| * 2`, no batch
normalization. -/
def cxColE (rs : List Dict) : Except PyErr (Option (List ℚ)) :=
  if hasColumn rs kComplexity then
    match rs.mapM (fun r => toNumE ((dget r kComplexity).getD Val.nan)) with
    | .error e => .error e
    | .ok vals => .ok (some (vals.map (fun c => 1 - qAbs (c - 1 / 2) * 2)))
  else .ok Option.none

/-- Combine the columns row-wise into scored rows, weights 0.4 / 0.3 / 0.2 /
0.1, in input order. -/
def assemble (rs : List Dict) (imCol psCol npCol cxCol : Option (List ℚ)) : List SR :=
  (List.range rs.length).map (fun i =>
    { row := rs.getD i []
      im := imCol.map (fun l => l.getD i 0)
      ps := psCol.map (fun l => l.getD i 0)
      np := npCol.map (fun l => l.getD i 0)
      cx := cxCol.map (fun l => l.getD i 0)
      score := (imCol.map (fun l => l.getD i 0 * (2 / 5))).getD 0
        + (psCol.map (fun l => l.getD i 0 * (3 / 10))).getD 0
        + (npCol.map (fun l => l.getD i 0 * (1 / 5))).getD 0
        + (cxCol.map (fun l => l.getD i 0 * (1 / 10))).getD 0 })

/-- Signal computation of `recommend` (lines 208–250): the four optional
columns and the weighted `ai_relevance_score`, in input order, before
sorting. -/
def scoreAllE (rs : List Dict) (prefs : Option Prefs) (ings : List Val) :
    Except PyErr (List SR) :=
  match imColE rs ings with
  | .error e => .error e
  | .ok imCol =>
    match psColE rs prefs with
    | .error e => .error e
    | .ok psCol =>
      match npColE rs with
      | .error e => .error e
      | .ok npCol =>
        match cxColE rs with
        | .error e => .error e
        | .ok cxCol => .ok (assemble rs imCol psCol npCol cxCol)

/-- Stable insertion: `x` (which precedes the already-sorted tail in the
input) walks past exactly the elements strictly preferred to it, so an
element equal to `x` stays behind `x`. -/
def insStable (gt : α → α → Bool) (x : α) : List α → List α
  | [] => [x]
  | h :: t => if gt h x then h :: insStable gt x t else x :: h :: t

/-- Stable sort by the strict-preference test `gt` (equal elements keep their
input order). -/
def sortStable (gt : α → α → Bool) : List α → List α
  | [] => []
  | h :: t => insStable gt h (sortStable gt t)

/-- Strict preference for the descending score sort.
`df.sort_values('ai_relevance_score', ascending=False)` uses pandas' default
`kind='quicksort'` (numpy introsort), whose order among TIED keys is
unspecified — pandas documents only `mergesort`/`stable` as stable, and
introsort reorders equal elements beyond its small-array insertion-sort
threshold.  The model therefore fixes one concrete order among ties (an
insertion sort); every theorem about the recommendation output relies only on
properties independent of the tie order — that the result is a permutation of
the scored rows, descending in the unrounded score — never on which tied row
comes first. -/
def srGt (a b : SR) : Bool := decide (b.score < a.score)

/-- Round half to even at integer precision (numpy's rounding), written over
the integer numerator and denominator so the kernel evaluates it: `f` is the
floor, `r/den` the fractional part. -/
def rhe (x : ℚ) : ℤ :=
  let f := x.num.fdiv (x.den : ℤ)
  let r := x.num - f * (x.den : ℤ)
  if 2 * r < (x.den : ℤ) then f
  else if (x.den : ℤ) < 2 * r then f + 1
  else if f % 2 = 0 then f else f + 1

/-- `Series.round(4)`. -/
def round4 (q : ℚ) : ℚ := Rat.divInt (rhe (q * 10000)) 10000

/-- The `ai_relevance_score` key. -/
def kAiScore : String := "ai_relevance_score"
/-- The `ai_rank` key. -/
def kAiRank : String := "ai_rank"
/-- The `ingredient_match_score` key. -/
def kImScore : String := "ingredient_match_score"
/-- The `preference_score` key. -/
def kPrefScore : String := "preference_score"
/-- The `normalized_popularity` key. -/
def kNormPop : String := "normalized_popularity"
/-- The `complexity_score` key. -/
def kCxScore : String := "complexity_score"

/-- After sorting: attach `ai_rank` 1..N, round `ai_relevance_score` to 4
decimals, and merge the computed columns into the records
(`df.to_dict('records')`). -/
def finalizeOut (l : List SR) : List Dict :=
  l.enum.map (fun pr =>
    let d1 := dset pr.2.row kAiScore (Val.float (round4 pr.2.score))
    let d2 := match pr.2.im with | some v => dset d1 kImScore (Val.float v) | Option.none => d1
    let d3 := match pr.2.ps with | some v => dset d2 kPrefScore (Val.float v) | Option.none => d2
    let d4 := match pr.2.np with | some v => dset d3 kNormPop (Val.float v) | Option.none => d3
    let d5 := match pr.2.cx with | some v => dset d4 kCxScore (Val.float v) | Option.none => d4
    dset d5 kAiRank (Val.int (pr.1 + 1)))

/-- `recommend` up to its exception handler. -/
def recommendE (rs : List Dict) (prefs : Option Prefs) (ings : List Val) :
    Except PyErr (List Dict) :=
  if rs.isEmpty then .ok []
  else
    match scoreAllE rs prefs ings with
    | .error e => .error e
    | .ok sc => .ok (finalizeOut (sortStable srGt sc))

/-- `recommend`: on any internal failure the original list is returned. -/
def recommend (rs : List Dict) (prefs : Option Prefs) (ings : List Val) : List Dict :=
  match recommendE rs prefs ings with
  | .ok l => l
  | .error _ => rs

/-! ## `analyze_ingredients` grouping and `suggest_additional_ingredients` -/

/-- The `food_groups` table, in dict order. -/
def FOOD_GROUPS : List (String × List LC) :=
  [("Proteins", (["chicken", "beef", "pork", "tofu", "fish", "shrimp", "egg", "beans",
     "lentils"]).map (fun s => s.data)),
   ("Vegetables", (["onion", "tomato", "lettuce", "carrot", "broccoli", "pepper", "spinach",
     "zucchini"]).map (fun s => s.data)),
   ("Fruits", (["apple", "banana", "orange", "berries", "mango", "lemon", "lime"]).map
     (fun s => s.data)),
   ("Grains", (["rice", "pasta", "bread", "quinoa", "oats", "flour", "tortilla"]).map
     (fun s => s.data)),
   ("Dairy", (["milk", "cheese", "yogurt", "cream", "butter"]).map (fun s => s.data)),
   ("Seasonings", (["salt", "pepper", "garlic", "herb", "spice", "sauce"]).map
     (fun s => s.data))]

/-- The group an ingredient is assigned to: first matching food group in
table order, else `Other`. -/
def groupOf (v : Val) : String :=
  match FOOD_GROUPS.find? (fun g => g.2.any (fun kw => hasSub kw (lowerStr (pyStr v)))) with
  | some g => g.1
  | Option.none => "Other"

/-- The grouping dict under construction. -/
abbrev GDict := List (String × List Val)

/-- Append `v` to the list at key `k` (creating the key at the end if absent —
only ever needed for `Other`). -/
def gAppend (d : GDict) (k : String) (v : Val) : GDict :=
  match d with
  | [] => [(k, [v])]
  | p :: t => if p.1 == k then (p.1, p.2 ++ [v]) :: t else p :: gAppend t k v

/-- `{group: [] for group in food_groups}`. -/
def groupsInit : GDict := FOOD_GROUPS.map (fun g => (g.1, []))

/-- The assignment loop of `analyze_ingredients`. -/
def buildGroups (ings : List Val) : GDict :=
  ings.foldl (fun d x => gAppend d (groupOf x) x) groupsInit

/-- The `ingredient_groups` part of `analyze_ingredients`: run the loop, then
drop empty groups (empty input short-circuits to `{}`). -/
def analyzeGroups (ings : List Val) : GDict :=
  if ings.isEmpty then [] else (buildGroups ings).filter (fun p => !p.2.isEmpty)

/-- The `pairings` table of `suggest_additional_ingredients`, in dict order. -/
def PAIRINGS : List (LC × List LC) :=
  [(("tomato").data, (["basil", "mozzarella", "olive oil", "garlic", "onion"]).map
     (fun s => s.data)),
   (("chicken").data, (["garlic", "lemon", "rosemary", "thyme", "onion", "potato"]).map
     (fun s => s.data)),
   (("beef").data, (["onion", "garlic", "mushroom", "carrot", "potato", "red wine"]).map
     (fun s => s.data)),
   (("pasta").data, (["tomato sauce", "garlic", "parmesan", "olive oil", "basil"]).map
     (fun s => s.data)),
   (("rice").data, (["soy sauce", "egg", "peas", "carrot", "onion", "garlic"]).map
     (fun s => s.data)),
   (("potato").data, (["butter", "cheese", "bacon", "sour cream", "garlic", "rosemary"]).map
     (fun s => s.data)),
   (("fish").data, (["lemon", "butter", "garlic", "dill", "olive oil", "capers"]).map
     (fun s => s.data))]

/-- `suggestions[pair] += 1` with `suggestions.setdefault(pair, 0)`: increment
in place, or append the key with count 1 (dict insertion order). -/
def incrKey (d : List (LC × ℕ)) (k : LC) : List (LC × ℕ) :=
  match d with
  | [] => [(k, 1)]
  | p :: t => if p.1 == k then (p.1, p.2 + 1) :: t else p :: incrKey t k

/-- Propose one paired ingredient unless already present (by substring) in
the current ingredient or anywhere in the user's list. -/
def procPair (ings : List Val) (il : LC) (d : List (LC × ℕ)) (pr : LC) : List (LC × ℕ) :=
  if !hasSub pr il && !(ings.any (fun i => hasSub pr (lowerStr (pyStr i)))) then incrKey d pr
  else d

/-- Tally contributions of one user ingredient over the whole pairing table. -/
def tallyOne (ings : List Val) (d : List (LC × ℕ)) (ing : Val) : List (LC × ℕ) :=
  let il := lowerStr (pyStr ing)
  PAIRINGS.foldl (fun d2 kp => if hasSub kp.1 il then kp.2.foldl (procPair ings il) d2 else d2) d

/-- The `suggestions` frequency dict. -/
def tallySuggest (ings : List Val) : List (LC × ℕ) := ings.foldl (tallyOne ings) []

/-- Strict preference for `sorted(..., key=lambda x: x[1], reverse=True)`
(Python's sort is stable, and `reverse=True` keeps equal elements in their
original order). -/
def suggGt (a b : LC × ℕ) : Bool := decide (b.2 < a.2)

/-- `suggest_additional_ingredients`. -/
def suggestAdditional (ings : List Val) : List LC :=
  if ings.isEmpty then []
  else ((sortStable suggGt (tallySuggest ings)).take 5).map (fun p => p.1)

/-- The metric named by claim C8: the number of pairing-table keys that
matched some user ingredient and whose pair list contains `s`. -/
def keyProposerCount (ings : List Val) (s : LC) : ℕ :=
  (PAIRINGS.filter (fun kp =>
    (ings.any (fun i => hasSub kp.1 (lowerStr (pyStr i)))) && kp.2.contains s)).length

/-! ## Auxiliary predicates and spec-side formulas used by the theorems -/

/-- Characters that can appear in a `normalize_ingredient` output: ASCII, not
upper case, not stripped punctuation, not a digit. -/
def goodCore (c : Char) : Bool :=
  !(decide (65 ≤ c.toNat ∧ c.toNat ≤ 90)) && decide (c.toNat < 128) && !isPunctNH c &&
    !isDigitChar c

/-- No two adjacent whitespace characters. -/
def noDoubleWs : LC → Bool
  | [] => true
  | [_] => true
  | a :: b :: t => !(isWsChar a && isWsChar b) && noDoubleWs (b :: t)

/-- Every whitespace character is a plain space. -/
def wsOnlySpace (s : LC) : Bool := s.all (fun c => !isWsChar c || c == ' ')

/-- The first character (if any) is not whitespace. -/
def headNotWs : LC → Bool
  | [] => true
  | c :: _ => !isWsChar c

/-- The last character (if any) is not whitespace. -/
def lastNotWs : LC → Bool
  | [] => true
  | [c] => !isWsChar c
  | _ :: cs => lastNotWs cs

/-- The claim-side matched-ingredient count of C4: a recipe ingredient counts
as matched exactly when some user ingredient is a case-insensitive substring
of it. -/
def countMatched (l us : List Val) : ℕ :=
  (l.map (fun v => lowerStr (pyStr v))).countP
    (fun ri => (us.map (fun u => lowerStr (pyStr u))).any (fun u => hasSub u ri))

/-- The claim-side ingredient-count term of C7. -/
def icTermSpec (r : Dict) : ℚ :=
  match dget r kIngredients with
  | some (Val.str s) => if s.isEmpty then 0 else min ((s.length : ℚ) / 15) 1 * (1 / 2)
  | some (Val.list l) => if l.isEmpty then 0 else min ((l.length : ℚ) / 15) 1 * (1 / 2)
  | _ => 0

/-- The claim-side step-count term of C7 (step count: element count for a
sequence, sentence-terminator segments for a string). -/
def scTermSpec (r : Dict) : ℚ :=
  match dget r kInstructions with
  | some (Val.str s) => if s.isEmpty then 0 else min (((splitSentences s).length : ℚ) / 10) 1 * (1 / 2)
  | some (Val.list l) => if l.isEmpty then 0 else min ((l.length : ℚ) / 10) 1 * (1 / 2)
  | _ => 0

/-- A value `len()` and iteration both accept in this model: a recipe whose
`ingredients` is absent, a string, or a list (what the C3/C6/C7/C9 theorems
hypothesise to keep enrichment on its non-raising path). -/
def ingOk (r : Dict) : Prop :=
  dget r kIngredients = Option.none ∨ (∃ s, dget r kIngredients = some (Val.str s)) ∨
    ∃ l, dget r kIngredients = some (Val.list l)

/-- The instructions shapes enumerated by claim C7: absent, string, or list. -/
def insOk (r : Dict) : Prop :=
  dget r kInstructions = Option.none ∨ (∃ s, dget r kInstructions = some (Val.str s)) ∨
    ∃ l, dget r kInstructions = some (Val.list l)

/-- Totalised `complexity_score` (equals the `Except` value under `ingOk`). -/
def cxPure (r : Dict) : ℚ :=
  match complexityE r with
  | .ok c => c
  | .error _ => 0

/-- Totalised `generate_tags`. -/
def tagsPure (r : Dict) : List LC :=
  match generateTagsE r with
  | .ok t => t
  | .error _ => []

/-- Totalised iteration. -/
def pyIterD (v : Val) : List Val :=
  match pyIter v with
  | .ok l => l
  | .error _ => []

/-- The string fed to `hash` for `recipe_hash`:
`f"{recipe.get('title','')}{' '.join(str(ing) for ing in recipe['ingredients'])}"`. -/
def hashInput (r : Dict) : LC :=
  pyStr ((dget r kTitle).getD (Val.str [])) ++
    joinSp ((pyIterD ((dget r kIngredients).getD Val.none)).map pyStr)

/-- The value `enrich_recipe_data` produces for one recipe on the non-raising
path (shown equal to `enrichOneE` under `ingOk`). -/
def enrichPure (ph : LC → ℤ) (r : Dict) : Dict :=
  let e1 :=
    match dget r kIngredients with
    | some v => if truthy v then dset r kNormalized (preprocessVal v) else r
    | Option.none => r
  let cx := cxPure r
  let e2 := dset e1 kComplexity (Val.float (min cx 1))
  let est := dset (dset e2 kCookingTime (Val.int (pyInt (20 + cx * 40)))) kEstimatedTime
    (Val.bool true)
  let e3 :=
    match dget r kCookingTime with
    | some v => if truthy v then e2 else est
    | Option.none => est
  let e4 :=
    match dget r kTags with
    | some v =>
      if truthy v then e3 else dset e3 kTags (Val.list ((tagsPure r).map Val.str))
    | Option.none => dset e3 kTags (Val.list ((tagsPure r).map Val.str))
  if dmem r kIngredients && dmem r kTitle then
    dset e4 kRecipeHash (Val.str (toString (ph (hashInput r))).data)
  else e4

/-- Lookup in a grouping dict, with `[]` for a missing key. -/
def glook (d : GDict) (k : String) : List Val :=
  ((d.find? (fun p => p.1 == k)).map (fun p => p.2)).getD []

/-- The claim-side rating boost of C5: `(rating / 5) * 0.8` summed over the
interactions whose `recipe_id` matches under string coercion. -/
def ratingSum (ins : List Interaction) (rid : LC) : ℚ :=
  ((ins.filter (fun i => pyStr (i.recipe_id.getD (Val.str [])) == rid)).map
    (fun i => (numView (i.rating.getD Val.none)).getD 0 / 5 * (4 / 5))).sum

end RG

namespace RG

/-! ## Dictionary lemmas -/

theorem dget_dset_self (d : Dict) (k : String) (v : Val) : dget (dset d k v) k = some v := by
  induction d with
  | nil => simp [dget, dset, List.find?]
  | cons p t ih =>
    by_cases h : p.1 = k
    · simp [dset, h, dget, List.find?]
    · have hb : (p.1 == k) = false := by simpa using h
      simp only [dset, hb, Bool.false_eq_true, if_false]
      simpa [dget, List.find?, hb] using ih

theorem dget_dset_ne (d : Dict) (k k' : String) (v : Val) (h : k ≠ k') :
    dget (dset d k' v) k = dget d k := by
  induction d with
  | nil =>
    have hb : (k' == k) = false := by simpa using (Ne.symm h)
    simp [dget, dset, List.find?, hb]
  | cons p t ih =>
    by_cases hp : p.1 = k'
    · have hb : (p.1 == k') = true := by simpa using hp
      have hbk : (p.1 == k) = false := by simp [hp]; exact Ne.symm h
      have hk'k : (k' == k) = false := by simpa using (Ne.symm h)
      simp [dset, hb, dget, List.find?, hbk, hk'k, hp]
    · have hb : (p.1 == k') = false := by simpa using hp
      simp only [dset, hb, Bool.false_eq_true, if_false]
      by_cases hk : p.1 = k
      · simp [dget, List.find?, hk]
      · have hbk : (p.1 == k) = false := by simpa using hk
        simpa [dget, List.find?, hbk] using ih

theorem dmem_dset_self (d : Dict) (k : String) (v : Val) : dmem (dset d k v) k = true := by
  induction d with
  | nil => simp [dmem, dset, List.find?]
  | cons p t ih =>
    by_cases h : p.1 = k
    · simp [dset, h, dmem, List.find?]
    · have hb : (p.1 == k) = false := by simpa using h
      simp only [dset, hb, Bool.false_eq_true, if_false]
      simpa [dmem, List.find?, hb] using ih

theorem dmem_dset_ne (d : Dict) (k k' : String) (v : Val) (h : k ≠ k') :
    dmem (dset d k' v) k = dmem d k := by
  induction d with
  | nil =>
    have hb : (k' == k) = false := by simpa using (Ne.symm h)
    simp [dmem, dset, List.find?, hb]
  | cons p t ih =>
    by_cases hp : p.1 = k'
    · have hb : (p.1 == k') = true := by simpa using hp
      have hbk : (p.1 == k) = false := by simp [hp]; exact Ne.symm h
      have hk'k : (k' == k) = false := by simpa using (Ne.symm h)
      simp [dset, hb, dmem, List.find?, hbk, hk'k, hp]
    · have hb : (p.1 == k') = false := by simpa using hp
      simp only [dset, hb, Bool.false_eq_true, if_false]
      by_cases hk : p.1 = k
      · simp [dmem, List.find?, hk]
      · have hbk : (p.1 == k) = false := by simpa using hk
        simpa [dmem, List.find?, hbk] using ih

/-! ## Generic fold / mapM lemmas -/

theorem foldl_fix {α β : Type} (f : α → β → α) (s : α) (L : List β)
    (h : ∀ u ∈ L, f s u = s) : L.foldl f s = s := by
  induction L with
  | nil => rfl
  | cons x xs ih =>
    have hx : f s x = s := h x (by simp)
    simp only [List.foldl_cons, hx]
    exact ih (fun u hu => h u (by simp [hu]))

theorem mapM_error {α β : Type} (f : α → Except PyErr β) (l : List α) (a : α)
    (ha : a ∈ l) (he : f a = .error .typeError) :
    l.mapM f = .error PyErr.typeError := by
  induction l with
  | nil => cases ha
  | cons x xs ih =>
    rw [List.mapM_cons]
    rcases List.mem_cons.mp ha with h | h
    · subst h
      rw [he]
      rfl
    · cases hfx : f x with
      | error e =>
        cases e
        rfl
      | ok y =>
        rw [ih h]
        rfl

/-! ## Stable-sort lemmas -/

theorem filter_insStable {α : Type} (gt : α → α → Bool) (p : α → Bool) (x : α) (l : List α)
    (hp : ∀ a b, p a = true → p b = true → gt a b = false) :
    (insStable gt x l).filter p = if p x then x :: l.filter p else l.filter p := by
  induction l with
  | nil =>
    cases hx : p x <;> simp [insStable, List.filter, hx]
  | cons h t ih =>
    by_cases hgt : gt h x = true
    · have hne : ¬(p h = true ∧ p x = true) := by
        rintro ⟨h1, h2⟩
        rw [hp h x h1 h2] at hgt
        cases hgt
      simp only [insStable, hgt, if_true]
      by_cases hph : p h = true
      · have hpx : p x = true → False := fun hx => hne ⟨hph, hx⟩
        have hpx' : p x = false := by
          cases hx : p x
          · rfl
          · exact absurd hx hpx
        simp [List.filter_cons, hph, ih, hpx']
      · have hph' : p h = false := by
          cases hx : p h
          · rfl
          · exact absurd hx hph
        simp [List.filter_cons, hph', ih]
    · have hgt' : gt h x = false := by
        cases hx : gt h x
        · rfl
        · exact absurd hx hgt
      simp only [insStable, hgt', Bool.false_eq_true, if_false]
      by_cases hpx : p x = true
      · simp [List.filter_cons, hpx]
      · have hpx' : p x = false := by
          cases hx : p x
          · rfl
          · exact absurd hx hpx
        simp [List.filter_cons, hpx']

theorem filter_sortStable {α : Type} (gt : α → α → Bool) (p : α → Bool) (l : List α)
    (hp : ∀ a b, p a = true → p b = true → gt a b = false) :
    (sortStable gt l).filter p = l.filter p := by
  induction l with
  | nil => rfl
  | cons h t ih =>
    simp only [sortStable]
    rw [filter_insStable gt p h (sortStable gt t) hp, ih]
    by_cases hph : p h = true
    · simp [List.filter_cons, hph]
    · have hph' : p h = false := by
        cases hx : p h
        · rfl
        · exact absurd hx hph
      simp [List.filter_cons, hph']

theorem insStable_perm {α : Type} (gt : α → α → Bool) (x : α) (l : List α) :
    List.Perm (insStable gt x l) (x :: l) := by
  induction l with
  | nil => exact List.Perm.refl _
  | cons h t ih =>
    by_cases hgt : gt h x = true
    · simp only [insStable, hgt, if_true]
      exact (ih.cons h).trans (List.Perm.swap x h t)
    · have hgt' : gt h x = false := by
        cases hx : gt h x
        · rfl
        · exact absurd hx hgt
      simp [insStable, hgt']

theorem sortStable_perm {α : Type} (gt : α → α → Bool) (l : List α) :
    List.Perm (sortStable gt l) l := by
  induction l with
  | nil => exact List.Perm.refl _
  | cons h t ih => exact (insStable_perm gt h (sortStable gt t)).trans (ih.cons h)

theorem mem_insStable {α : Type} (gt : α → α → Bool) (x y : α) (l : List α) :
    y ∈ insStable gt x l ↔ y = x ∨ y ∈ l := by
  rw [(insStable_perm gt x l).mem_iff]
  simp

theorem insStable_pairwise {α β : Type} [LinearOrder β] (key : α → β) (x : α) (l : List α)
    (h : List.Pairwise (fun a b => key b ≤ key a) l) :
    List.Pairwise (fun a b => key b ≤ key a)
      (insStable (fun a b => decide (key b < key a)) x l) := by
  induction l with
  | nil => simp [insStable]
  | cons hd t ih =>
    rcases List.pairwise_cons.mp h with ⟨hhd, ht⟩
    by_cases hgt : decide (key x < key hd) = true
    · have hlt : key x < key hd := of_decide_eq_true hgt
      simp only [insStable, hgt, if_true]
      refine List.pairwise_cons.mpr ⟨?_, ih ht⟩
      intro y hy
      rcases (mem_insStable _ x y t).mp hy with rfl | hyt
      · exact le_of_lt hlt
      · exact hhd y hyt
    · have hle : key hd ≤ key x := by
        have := of_decide_eq_false (by
          cases hx : decide (key x < key hd)
          · rfl
          · exact absurd hx hgt)
        exact le_of_not_lt this
      have hgt' : decide (key x < key hd) = false := by
        cases hx : decide (key x < key hd)
        · rfl
        · exact absurd hx hgt
      simp only [insStable, hgt', Bool.false_eq_true, if_false]
      refine List.pairwise_cons.mpr ⟨?_, h⟩
      intro y hy
      rcases List.mem_cons.mp hy with rfl | hyt
      · exact hle
      · exact le_trans (hhd y hyt) hle

theorem sortStable_pairwise {α β : Type} [LinearOrder β] (key : α → β) (l : List α) :
    List.Pairwise (fun a b => key b ≤ key a)
      (sortStable (fun a b => decide (key b < key a)) l) := by
  induction l with
  | nil => simp [sortStable]
  | cons h t ih => exact insStable_pairwise key h _ ih

/-! ## C4: the raw ingredient-match score and its batch normalization -/

/-- C4: for a recipe with a non-empty (list-valued) `ingredients` field and a
non-empty user-ingredient list, `_calculate_ingredient_match` returns exactly
`matched / total` — matched counting recipe ingredients having some user
ingredient as case-insensitive substring — boosted by 1.2 when the quotient
exceeds 0.8 and capped at 1.0; and the `recommend` batch step divides every
raw score by the batch maximum exactly when that maximum is positive. -/
theorem claim4_ingredient_match (l us : List Val) (batch : List ℚ)
    (hl : l ≠ []) (hus : us ≠ []) :
    calcMatch (Val.list l) us =
      .ok (min (if (4 : ℚ) / 5 < (countMatched l us : ℚ) / (l.length : ℚ)
                then (countMatched l us : ℚ) / (l.length : ℚ) * (6 / 5)
                else (countMatched l us : ℚ) / (l.length : ℚ)) 1) ∧
    (0 < colMaxQ batch → normColumn batch = batch.map (fun q => q / colMaxQ batch)) ∧
    (colMaxQ batch = 0 → normColumn batch = batch) := by
  refine ⟨?_, ?_, ?_⟩
  · have hl' : l.isEmpty = false := by
      cases l
      · exact absurd rfl hl
      · rfl
    have hus' : us.isEmpty = false := by
      cases us
      · exact absurd rfl hus
      · rfl
    have hlen : l.length ≠ 0 := by
      cases l
      · exact absurd rfl hl
      · simp
    simp only [calcMatch, truthy, hl', hus', Bool.not_false, Bool.true_or, Bool.or_false,
      Bool.not_true, Bool.false_or, Bool.or_true, if_false, Bool.false_eq_true]
    rw [countMatched, List.countP_map]
    simp [hlen, Bind.bind, Except.bind, pure, Except.pure]
  · intro h
    simp [normColumn, h]
  · intro h
    simp [normColumn, h]

/-- Witness for C4 at a concrete input: recipe ingredients
`["tomato soup", "salt"]`, user ingredients `["tomato"]`, batch `[1/2]`. -/
theorem claim4_witness :
    ([Val.str ("tomato soup").data, Val.str ("salt").data] : List Val) ≠ [] ∧
    ([Val.str ("tomato").data] : List Val) ≠ [] ∧
    calcMatch (Val.list [Val.str ("tomato soup").data, Val.str ("salt").data])
        [Val.str ("tomato").data] = .ok (1 / 2) := by
  refine ⟨by decide, by decide, ?_⟩
  have h := (claim4_ingredient_match
    [Val.str ("tomato soup").data, Val.str ("salt").data]
    [Val.str ("tomato").data] [] (by decide) (by decide)).1
  rw [h]
  exact congrArg Except.ok (by decide)

/-! ## Enrichment helpers: the non-raising path -/

theorem dmem_eq_isSome (d : Dict) (k : String) : dmem d k = (dget d k).isSome := by
  simp [dmem, dget]

theorem complexityE_eq (r : Dict) (hing : ingOk r) : complexityE r = .ok (cxPure r) := by
  rcases hing with h | ⟨s, h⟩ | ⟨l, h⟩
  · simp [complexityE, cxPure, h]
  · cases htr : truthy (Val.str s) <;> simp [complexityE, cxPure, h, htr, pyLen]
  · cases htr : truthy (Val.list l) <;> simp [complexityE, cxPure, h, htr, pyLen]

theorem generateTagsE_eq (r : Dict) (hing : ingOk r) :
    generateTagsE r = .ok (tagsPure r) := by
  rcases hing with h | ⟨s, h⟩ | ⟨l, h⟩ <;> simp [generateTagsE, tagsPure, h, pyIter]

theorem pyIter_eq (v : Val) (h : (∃ s, v = Val.str s) ∨ ∃ l, v = Val.list l) :
    pyIter v = .ok (pyIterD v) := by
  rcases h with ⟨s, rfl⟩ | ⟨l, rfl⟩ <;> rfl

theorem enrichOne_eq (ph : LC → ℤ) (r : Dict) (hing : ingOk r) :
    enrichOneE ph r = .ok (enrichPure ph r) := by
  have hcx := complexityE_eq r hing
  have htags := generateTagsE_eq r hing
  have hfinal : ∀ e4 : Dict,
      (if dmem r kIngredients && dmem r kTitle then
        match pyIter ((dget r kIngredients).getD Val.none) with
        | .error e => .error e
        | .ok items =>
          Except.ok (dset e4 kRecipeHash (Val.str (toString (ph
            (pyStr ((dget r kTitle).getD (Val.str [])) ++ joinSp (items.map pyStr)))).data))
      else Except.ok e4) =
      Except.ok (if dmem r kIngredients && dmem r kTitle then
        dset e4 kRecipeHash (Val.str (toString (ph (hashInput r))).data) else e4) := by
    intro e4
    rcases hmem : dmem r kIngredients && dmem r kTitle with _ | _
    · simp
    · obtain ⟨h1, _⟩ : dmem r kIngredients = true ∧ dmem r kTitle = true := by
        simpa using hmem
      rw [dmem_eq_isSome] at h1
      rcases ho : dget r kIngredients with _ | v
      · rw [ho] at h1
        cases h1
      · have hv : (∃ s, v = Val.str s) ∨ ∃ l, v = Val.list l := by
          rcases hing with h | ⟨s, h⟩ | ⟨l, h⟩
          · rw [ho] at h
            cases h
          · rw [ho] at h
            exact Or.inl ⟨s, by injection h⟩
          · rw [ho] at h
            exact Or.inr ⟨l, by injection h⟩
        simp only [ho, Option.getD_some, pyIter_eq v hv, hashInput, ho]
        simp
  rcases htg : dget r kTags with _ | tv
  · simp only [enrichOneE, enrichPure, hcx, htg, htags]
    exact hfinal _
  · rcases htv : truthy tv with _ | _
    · simp only [enrichOneE, enrichPure, hcx, htg, htags, htv, Bool.false_eq_true, if_false]
      exact hfinal _
    · simp only [enrichOneE, enrichPure, hcx, htg, htv, if_true]
      exact hfinal _

/-! ## Field-level description of the enriched record -/

theorem dget_enrichPure_frame (ph : LC → ℤ) (r : Dict) (k : String)
    (h1 : k ≠ kNormalized) (h2 : k ≠ kComplexity) (h3 : k ≠ kCookingTime)
    (h4 : k ≠ kEstimatedTime) (h5 : k ≠ kTags) (h6 : k ≠ kRecipeHash) :
    dget (enrichPure ph r) k = dget r k := by
  have A := fun d v => dget_dset_ne d k kNormalized v h1
  have B := fun d v => dget_dset_ne d k kComplexity v h2
  have C := fun d v => dget_dset_ne d k kCookingTime v h3
  have D := fun d v => dget_dset_ne d k kEstimatedTime v h4
  have E := fun d v => dget_dset_ne d k kTags v h5
  have F := fun d v => dget_dset_ne d k kRecipeHash v h6
  simp only [enrichPure]
  rcases dget r kIngredients with _ | iv <;> rcases dget r kCookingTime with _ | cv <;>
    rcases dget r kTags with _ | tv <;>
    simp [A, B, C, D, E, F, apply_ite (fun d => dget d k)]

theorem dget_enrichPure_complexity (ph : LC → ℤ) (r : Dict) :
    dget (enrichPure ph r) kComplexity = some (Val.float (min (cxPure r) 1)) := by
  have C := fun d v => dget_dset_ne d kComplexity kCookingTime v (by decide)
  have D := fun d v => dget_dset_ne d kComplexity kEstimatedTime v (by decide)
  have E := fun d v => dget_dset_ne d kComplexity kTags v (by decide)
  have F := fun d v => dget_dset_ne d kComplexity kRecipeHash v (by decide)
  simp only [enrichPure]
  rcases dget r kIngredients with _ | iv <;> rcases dget r kCookingTime with _ | cv <;>
    rcases dget r kTags with _ | tv <;>
    simp [C, D, E, F, dget_dset_self, apply_ite (fun d => dget d kComplexity)]

theorem dget_enrichPure_tags_kept (ph : LC → ℤ) (r : Dict) (tv : Val)
    (h : dget r kTags = some tv) (ht : truthy tv = true) :
    dget (enrichPure ph r) kTags = some tv := by
  have C := fun d v => dget_dset_ne d kTags kCookingTime v (by decide)
  have D := fun d v => dget_dset_ne d kTags kEstimatedTime v (by decide)
  have B := fun d v => dget_dset_ne d kTags kComplexity v (by decide)
  have A := fun d v => dget_dset_ne d kTags kNormalized v (by decide)
  have F := fun d v => dget_dset_ne d kTags kRecipeHash v (by decide)
  simp only [enrichPure, h, ht, if_true]
  rcases dget r kIngredients with _ | iv <;> rcases dget r kCookingTime with _ | cv <;>
    simp [A, B, C, D, F, h, apply_ite (fun d => dget d kTags)]

theorem dget_enrichPure_tags_gen (ph : LC → ℤ) (r : Dict)
    (h : dget r kTags = Option.none ∨ ∃ tv, dget r kTags = some tv ∧ truthy tv = false) :
    dget (enrichPure ph r) kTags = some (Val.list ((tagsPure r).map Val.str)) := by
  have F := fun d v => dget_dset_ne d kTags kRecipeHash v (by decide)
  rcases h with h | ⟨tv, h, ht⟩
  · simp only [enrichPure, h]
    rcases dget r kIngredients with _ | iv <;> rcases dget r kCookingTime with _ | cv <;>
      simp [F, dget_dset_self, apply_ite (fun d => dget d kTags)]
  · simp only [enrichPure, h, ht, Bool.false_eq_true, if_false]
    rcases dget r kIngredients with _ | iv <;> rcases dget r kCookingTime with _ | cv <;>
      simp [F, dget_dset_self, apply_ite (fun d => dget d kTags)]

theorem dget_enrichPure_cooking_kept (ph : LC → ℤ) (r : Dict) (cv : Val)
    (h : dget r kCookingTime = some cv) (ht : truthy cv = true) :
    dget (enrichPure ph r) kCookingTime = some cv ∧
    dget (enrichPure ph r) kEstimatedTime = dget r kEstimatedTime := by
  have Bc := fun d v => dget_dset_ne d kCookingTime kComplexity v (by decide)
  have Ac := fun d v => dget_dset_ne d kCookingTime kNormalized v (by decide)
  have Ec := fun d v => dget_dset_ne d kCookingTime kTags v (by decide)
  have Fc := fun d v => dget_dset_ne d kCookingTime kRecipeHash v (by decide)
  have Be := fun d v => dget_dset_ne d kEstimatedTime kComplexity v (by decide)
  have Ae := fun d v => dget_dset_ne d kEstimatedTime kNormalized v (by decide)
  have Ee := fun d v => dget_dset_ne d kEstimatedTime kTags v (by decide)
  have Fe := fun d v => dget_dset_ne d kEstimatedTime kRecipeHash v (by decide)
  constructor <;>
    · simp only [enrichPure, h, ht, if_true]
      rcases dget r kIngredients with _ | iv <;> rcases dget r kTags with _ | tv <;>
        simp [Ac, Bc, Ec, Fc, Ae, Be, Ee, Fe, h, apply_ite (fun d => dget d kCookingTime),
          apply_ite (fun d => dget d kEstimatedTime)]

theorem dget_enrichPure_cooking_est (ph : LC → ℤ) (r : Dict)
    (h : dget r kCookingTime = Option.none ∨
      ∃ cv, dget r kCookingTime = some cv ∧ truthy cv = false) :
    dget (enrichPure ph r) kCookingTime = some (Val.int (pyInt (20 + cxPure r * 40))) ∧
    dget (enrichPure ph r) kEstimatedTime = some (Val.bool true) := by
  have Ec := fun d v => dget_dset_ne d kCookingTime kTags v (by decide)
  have Fc := fun d v => dget_dset_ne d kCookingTime kRecipeHash v (by decide)
  have Cc := fun d v => dget_dset_ne d kCookingTime kEstimatedTime v (by decide)
  have Ee := fun d v => dget_dset_ne d kEstimatedTime kTags v (by decide)
  have Fe := fun d v => dget_dset_ne d kEstimatedTime kRecipeHash v (by decide)
  constructor <;>
    · rcases h with h | ⟨cv, h, ht⟩
      · simp only [enrichPure, h]
        rcases dget r kIngredients with _ | iv <;> rcases dget r kTags with _ | tv <;>
          simp [Ec, Fc, Cc, Ee, Fe, dget_dset_self, apply_ite (fun d => dget d kCookingTime),
            apply_ite (fun d => dget d kEstimatedTime)]
      · simp only [enrichPure, h, ht, Bool.false_eq_true, if_false]
        rcases dget r kIngredients with _ | iv <;> rcases dget r kTags with _ | tv <;>
          simp [Ec, Fc, Cc, Ee, Fe, dget_dset_self, apply_ite (fun d => dget d kCookingTime),
            apply_ite (fun d => dget d kEstimatedTime)]

theorem dget_enrichPure_normalized_set (ph : LC → ℤ) (r : Dict) (v : Val)
    (h : dget r kIngredients = some v) (ht : truthy v = true) :
    dget (enrichPure ph r) kNormalized = some (preprocessVal v) := by
  have B := fun d v => dget_dset_ne d kNormalized kComplexity v (by decide)
  have C := fun d v => dget_dset_ne d kNormalized kCookingTime v (by decide)
  have D := fun d v => dget_dset_ne d kNormalized kEstimatedTime v (by decide)
  have E := fun d v => dget_dset_ne d kNormalized kTags v (by decide)
  have F := fun d v => dget_dset_ne d kNormalized kRecipeHash v (by decide)
  simp only [enrichPure, h, ht, if_true]
  rcases dget r kCookingTime with _ | cv <;> rcases dget r kTags with _ | tv <;>
    simp [B, C, D, E, F, dget_dset_self, apply_ite (fun d => dget d kNormalized)]

theorem dget_enrichPure_normalized_kept (ph : LC → ℤ) (r : Dict)
    (h : dget r kIngredients = Option.none ∨
      ∃ v, dget r kIngredients = some v ∧ truthy v = false) :
    dget (enrichPure ph r) kNormalized = dget r kNormalized := by
  have B := fun d v => dget_dset_ne d kNormalized kComplexity v (by decide)
  have C := fun d v => dget_dset_ne d kNormalized kCookingTime v (by decide)
  have D := fun d v => dget_dset_ne d kNormalized kEstimatedTime v (by decide)
  have E := fun d v => dget_dset_ne d kNormalized kTags v (by decide)
  have F := fun d v => dget_dset_ne d kNormalized kRecipeHash v (by decide)
  rcases h with h | ⟨v, h, ht⟩
  · simp only [enrichPure, h]
    rcases dget r kCookingTime with _ | cv <;> rcases dget r kTags with _ | tv <;>
      simp [B, C, D, E, F, apply_ite (fun d => dget d kNormalized)]
  · simp only [enrichPure, h, ht, Bool.false_eq_true, if_false]
    rcases dget r kCookingTime with _ | cv <;> rcases dget r kTags with _ | tv <;>
      simp [B, C, D, E, F, apply_ite (fun d => dget d kNormalized)]

theorem dget_enrichPure_hash_set (ph : LC → ℤ) (r : Dict)
    (h : (dmem r kIngredients && dmem r kTitle) = true) :
    dget (enrichPure ph r) kRecipeHash =
      some (Val.str (toString (ph (hashInput r))).data) := by
  simp only [enrichPure, h, if_true]
  rcases dget r kIngredients with _ | iv <;> rcases dget r kCookingTime with _ | cv <;>
    rcases dget r kTags with _ | tv <;> simp [dget_dset_self]

theorem dget_enrichPure_hash_kept (ph : LC → ℤ) (r : Dict)
    (h : (dmem r kIngredients && dmem r kTitle) = false) :
    dget (enrichPure ph r) kRecipeHash = dget r kRecipeHash := by
  have A := fun d v => dget_dset_ne d kRecipeHash kNormalized v (by decide)
  have B := fun d v => dget_dset_ne d kRecipeHash kComplexity v (by decide)
  have C := fun d v => dget_dset_ne d kRecipeHash kCookingTime v (by decide)
  have D := fun d v => dget_dset_ne d kRecipeHash kEstimatedTime v (by decide)
  have E := fun d v => dget_dset_ne d kRecipeHash kTags v (by decide)
  simp only [enrichPure, h, Bool.false_eq_true, if_false]
  rcases dget r kIngredients with _ | iv <;> rcases dget r kCookingTime with _ | cv <;>
    rcases dget r kTags with _ | tv <;>
    simp [A, B, C, D, E, apply_ite (fun d => dget d kRecipeHash)]

/-! ## C7: the complexity metric -/

theorem stGo_noTerm (s : LC) : ∀ cur : LC, (∀ c ∈ s, termChar c = false) →
    stGo cur s = [cur.reverse ++ s] := by
  induction s with
  | nil => intro cur _; simp [stGo]
  | cons c cs ih =>
    intro cur h
    have hc : termChar c = false := h c (by simp)
    rw [stGo, hc]
    simp only [Bool.false_eq_true, if_false]
    rw [ih (c :: cur) (fun d hd => h d (by simp [hd]))]
    simp

theorem splitSentences_noTerm (s : LC) (h : ∀ c ∈ s, termChar c = false) :
    splitSentences s = [s] := by
  rw [splitSentences, stGo_noTerm s [] h]
  rfl

theorem cxPure_spec (r : Dict) (hing : ingOk r) (hins : insOk r) :
    cxPure r = icTermSpec r + scTermSpec r := by
  have hsc : scPart r = scTermSpec r := by
    rcases hins with h | ⟨s, h⟩ | ⟨l, h⟩
    · simp [scPart, scTermSpec, h]
    · rcases hs : s.isEmpty with _ | _ <;>
        simp [scPart, scTermSpec, h, truthy, hs, pyStr]
    · rcases hs : l.isEmpty with _ | _ <;>
        simp [scPart, scTermSpec, h, truthy, hs]
  rcases hing with h | ⟨s, h⟩ | ⟨l, h⟩
  · simp [cxPure, complexityE, icTermSpec, h, hsc]
  · rcases hs : s.isEmpty with _ | _ <;>
      simp [cxPure, complexityE, icTermSpec, h, truthy, hs, pyLen, hsc]
  · rcases hs : l.isEmpty with _ | _ <;>
      simp [cxPure, complexityE, icTermSpec, h, truthy, hs, pyLen, hsc]

theorem icTermSpec_bounds (r : Dict) : 0 ≤ icTermSpec r ∧ icTermSpec r ≤ 1 / 2 := by
  have hgen : ∀ n : ℕ, 0 ≤ min ((n : ℚ) / 15) 1 * (1 / 2) ∧
      min ((n : ℚ) / 15) 1 * (1 / 2) ≤ 1 / 2 := by
    intro n
    constructor
    · apply mul_nonneg _ (by norm_num)
      exact le_min (by positivity) (by norm_num)
    · calc min ((n : ℚ) / 15) 1 * (1 / 2) ≤ 1 * (1 / 2) :=
            mul_le_mul_of_nonneg_right (min_le_right _ _) (by norm_num)
        _ = 1 / 2 := by norm_num
  rw [icTermSpec]
  rcases dget r kIngredients with _ | v
  · norm_num
  · cases v <;> try norm_num
    · split_ifs <;> first | exact hgen _ | norm_num
    · split_ifs <;> first | exact hgen _ | norm_num

theorem scTermSpec_bounds (r : Dict) : 0 ≤ scTermSpec r ∧ scTermSpec r ≤ 1 / 2 := by
  have hgen : ∀ n : ℕ, 0 ≤ min ((n : ℚ) / 10) 1 * (1 / 2) ∧
      min ((n : ℚ) / 10) 1 * (1 / 2) ≤ 1 / 2 := by
    intro n
    constructor
    · apply mul_nonneg _ (by norm_num)
      exact le_min (by positivity) (by norm_num)
    · calc min ((n : ℚ) / 10) 1 * (1 / 2) ≤ 1 * (1 / 2) :=
            mul_le_mul_of_nonneg_right (min_le_right _ _) (by norm_num)
        _ = 1 / 2 := by norm_num
  rw [scTermSpec]
  rcases dget r kInstructions with _ | v
  · norm_num
  · cases v <;> try norm_num
    · split_ifs <;> first | exact hgen _ | norm_num
    · split_ifs <;> first | exact hgen _ | norm_num

/-- C7: for any recipe whose `ingredients` and `instructions` fields are each
absent, a string or a list, the raw complexity score is computed without
error and equals `min(ingredient_count/15, 1)·0.5 + min(step_count/10, 1)·0.5`
(absent or empty fields contributing 0), lies in `[0, 1]` (so the final
`min(·, 1)` clamp is a no-op and the enriched `complexity` field carries
exactly this value), and a non-empty string of instructions with no sentence
terminator splits into exactly one step, never zero. -/
theorem claim7_complexity (r : Dict) (hing : ingOk r) (hins : insOk r) :
    complexityE r = .ok (icTermSpec r + scTermSpec r) ∧
    0 ≤ icTermSpec r + scTermSpec r ∧
    icTermSpec r + scTermSpec r ≤ 1 ∧
    min (icTermSpec r + scTermSpec r) 1 = icTermSpec r + scTermSpec r ∧
    (∀ (ph : LC → ℤ) (e : Dict), enrichOneE ph r = .ok e →
      dget e kComplexity = some (Val.float (icTermSpec r + scTermSpec r))) ∧
    (∀ s : LC, dget r kInstructions = some (Val.str s) → s ≠ [] →
      (∀ c ∈ s, termChar c = false) → (splitSentences s).length = 1) := by
  have hspec := cxPure_spec r hing hins
  have hic := icTermSpec_bounds r
  have hsc := scTermSpec_bounds r
  have hub : icTermSpec r + scTermSpec r ≤ 1 := by linarith [hic.2, hsc.2]
  have hlb : 0 ≤ icTermSpec r + scTermSpec r := by linarith [hic.1, hsc.1]
  have hmin : min (icTermSpec r + scTermSpec r) 1 = icTermSpec r + scTermSpec r :=
    min_eq_left hub
  refine ⟨?_, hlb, hub, hmin, ?_, ?_⟩
  · rw [complexityE_eq r hing, hspec]
  · intro ph e he
    rw [enrichOne_eq ph r hing] at he
    injection he with he
    rw [← he, dget_enrichPure_complexity, hspec, hmin]
  · intro s _ hne hterm
    rw [splitSentences_noTerm s hterm]
    rfl

/-- Witness for C7: `ingredients = ["a", "b"]`, `instructions = "mix well"`
(no terminator): complexity `2/15·0.5 + 1/10·0.5`. -/
theorem claim7_witness :
    ingOk [(kIngredients, Val.list [Val.str ("a").data, Val.str ("b").data]),
      (kInstructions, Val.str ("mix well").data)] ∧
    complexityE [(kIngredients, Val.list [Val.str ("a").data, Val.str ("b").data]),
      (kInstructions, Val.str ("mix well").data)] = .ok (1 / 15 + 1 / 20) := by
  constructor
  · exact Or.inr (Or.inr ⟨[Val.str ("a").data, Val.str ("b").data], by decide⟩)
  · have h := (claim7_complexity
      [(kIngredients, Val.list [Val.str ("a").data, Val.str ("b").data]),
        (kInstructions, Val.str ("mix well").data)]
      (Or.inr (Or.inr ⟨[Val.str ("a").data, Val.str ("b").data], by decide⟩))
      (Or.inr (Or.inl ⟨("mix well").data, by decide⟩))).1
    rw [h]
    exact congrArg Except.ok (by decide)

/-! ## C6: the recipe_hash gate -/

/-- C6 is false as stated: a recipe whose `title` is the empty string and
whose `ingredients` is the empty list — both present but NOT populated —
still receives a `recipe_hash`, because the gate at preprocessor.py:206 tests
key presence only. -/
theorem claim6_counterexample :
    (dget ((enrichRecipeData pyHash0 [[(kTitle, Val.str []), (kIngredients, Val.list []),
        (kTags, Val.list [Val.str ("x").data])]]).headD []) kRecipeHash).isSome = true ∧
    truthy (Val.str []) = false ∧ truthy (Val.list []) = false := by decide

/-- C6 (amended): the enriched record carries `recipe_hash` iff both the
`title` and `ingredients` keys are present on the input (populated or not),
provided the input did not itself carry a `recipe_hash`; and two recipes with
equal `(title, ingredients)` values receive equal hash strings within one
process run (one fixed `hash`). -/
theorem claim6_amended :
    (∀ (ph : LC → ℤ) (r e : Dict), ingOk r → enrichOneE ph r = .ok e →
      dmem r kRecipeHash = false →
      (dmem e kRecipeHash = true ↔ (dmem r kIngredients = true ∧ dmem r kTitle = true))) ∧
    (∀ (ph : LC → ℤ) (r1 r2 e1 e2 : Dict) (t i : Val), ingOk r1 → ingOk r2 →
      enrichOneE ph r1 = .ok e1 → enrichOneE ph r2 = .ok e2 →
      dget r1 kTitle = some t → dget r2 kTitle = some t →
      dget r1 kIngredients = some i → dget r2 kIngredients = some i →
      dget e1 kRecipeHash = dget e2 kRecipeHash) := by
  constructor
  · intro ph r e hing hok hnr
    rw [enrichOne_eq ph r hing] at hok
    injection hok with hok
    subst hok
    rcases hb : (dmem r kIngredients && dmem r kTitle) with _ | _
    · rw [dmem_eq_isSome, dget_enrichPure_hash_kept ph r hb, ← dmem_eq_isSome, hnr]
      constructor
      · intro hc
        cases hc
      · rintro ⟨h1, h2⟩
        rw [h1, h2] at hb
        cases hb
    · obtain ⟨h1, h2⟩ : dmem r kIngredients = true ∧ dmem r kTitle = true := by
        simpa using hb
      rw [dmem_eq_isSome, dget_enrichPure_hash_set ph r hb]
      simp [h1, h2]
  · intro ph r1 r2 e1 e2 t i hing1 hing2 hok1 hok2 ht1 ht2 hi1 hi2
    rw [enrichOne_eq ph r1 hing1] at hok1
    rw [enrichOne_eq ph r2 hing2] at hok2
    injection hok1 with hok1
    injection hok2 with hok2
    subst hok1
    subst hok2
    have hb1 : (dmem r1 kIngredients && dmem r1 kTitle) = true := by
      rw [dmem_eq_isSome, dmem_eq_isSome, hi1, ht1]
      rfl
    have hb2 : (dmem r2 kIngredients && dmem r2 kTitle) = true := by
      rw [dmem_eq_isSome, dmem_eq_isSome, hi2, ht2]
      rfl
    rw [dget_enrichPure_hash_set ph r1 hb1, dget_enrichPure_hash_set ph r2 hb2]
    have hhi : hashInput r1 = hashInput r2 := by
      rw [hashInput, hashInput, ht1, ht2, hi1, hi2]
    rw [hhi]

/-- Witness for C6 at a concrete recipe with populated title and
ingredients. -/
theorem claim6_witness :
    dmem (enrichPure pyHash0
      [(kTitle, Val.str ("t").data), (kIngredients, Val.list [Val.str ("a").data])])
      kRecipeHash = true := by
  have hing : ingOk [(kTitle, Val.str ("t").data),
      (kIngredients, Val.list [Val.str ("a").data])] :=
    Or.inr (Or.inr ⟨[Val.str ("a").data], by decide⟩)
  exact (claim6_amended.1 pyHash0 _ _ hing (enrichOne_eq pyHash0 _ hing) (by decide)).mpr
    ⟨by decide, by decide⟩

/-! ## C9: which fields enrichment writes -/

/-- C9 is false as stated: `estimated_time` is a seventh field the loop can
overwrite — an input recipe carrying `estimated_time = False` and no
`cooking_time_minutes` comes back with `estimated_time = True`, although the
claim says every field other than the six named ones passes through
unchanged. -/
theorem claim9_counterexample :
    dget ((enrichRecipeData pyHash0 [[(kEstimatedTime, Val.bool false)]]).headD [])
      kEstimatedTime = some (Val.bool true) ∧
    dget [(kEstimatedTime, Val.bool false)] kEstimatedTime = some (Val.bool false) := by
  decide

/-- C9 (amended): on the non-raising path, enrichment touches exactly the
fields `normalized_ingredients`, `complexity`, `cooking_time_minutes`,
`estimated_time`, `tags` and `recipe_hash`: `complexity` is always
recomputed; `tags` and `cooking_time_minutes` pass through exactly when
already truthy (otherwise they are generated / estimated, the latter also
setting `estimated_time = True`); `normalized_ingredients` is recomputed
exactly when `ingredients` is truthy; `recipe_hash` is written exactly when
both `title` and `ingredients` keys are present; every other field keeps its
input value. -/
theorem claim9_amended (ph : LC → ℤ) (r : Dict) (hing : ingOk r) :
    enrichOneE ph r = .ok (enrichPure ph r) ∧
    (∀ k, k ≠ kNormalized → k ≠ kComplexity → k ≠ kCookingTime → k ≠ kEstimatedTime →
      k ≠ kTags → k ≠ kRecipeHash → dget (enrichPure ph r) k = dget r k) ∧
    dget (enrichPure ph r) kComplexity = some (Val.float (min (cxPure r) 1)) ∧
    (∀ tv, dget r kTags = some tv → truthy tv = true →
      dget (enrichPure ph r) kTags = some tv) ∧
    ((dget r kTags = Option.none ∨ ∃ tv, dget r kTags = some tv ∧ truthy tv = false) →
      dget (enrichPure ph r) kTags = some (Val.list ((tagsPure r).map Val.str))) ∧
    (∀ cv, dget r kCookingTime = some cv → truthy cv = true →
      dget (enrichPure ph r) kCookingTime = some cv ∧
      dget (enrichPure ph r) kEstimatedTime = dget r kEstimatedTime) ∧
    ((dget r kCookingTime = Option.none ∨
        ∃ cv, dget r kCookingTime = some cv ∧ truthy cv = false) →
      dget (enrichPure ph r) kCookingTime = some (Val.int (pyInt (20 + cxPure r * 40))) ∧
      dget (enrichPure ph r) kEstimatedTime = some (Val.bool true)) ∧
    (∀ v, dget r kIngredients = some v → truthy v = true →
      dget (enrichPure ph r) kNormalized = some (preprocessVal v)) ∧
    ((dget r kIngredients = Option.none ∨
        ∃ v, dget r kIngredients = some v ∧ truthy v = false) →
      dget (enrichPure ph r) kNormalized = dget r kNormalized) ∧
    ((dmem r kIngredients && dmem r kTitle) = true →
      dget (enrichPure ph r) kRecipeHash =
        some (Val.str (toString (ph (hashInput r))).data)) ∧
    ((dmem r kIngredients && dmem r kTitle) = false →
      dget (enrichPure ph r) kRecipeHash = dget r kRecipeHash) := by
  refine ⟨enrichOne_eq ph r hing, ?_, dget_enrichPure_complexity ph r, ?_, ?_, ?_, ?_, ?_,
    ?_, ?_, ?_⟩
  · intro k h1 h2 h3 h4 h5 h6
    exact dget_enrichPure_frame ph r k h1 h2 h3 h4 h5 h6
  · intro tv h ht
    exact dget_enrichPure_tags_kept ph r tv h ht
  · intro h
    exact dget_enrichPure_tags_gen ph r h
  · intro cv h ht
    exact dget_enrichPure_cooking_kept ph r cv h ht
  · intro h
    exact dget_enrichPure_cooking_est ph r h
  · intro v h ht
    exact dget_enrichPure_normalized_set ph r v h ht
  · intro h
    exact dget_enrichPure_normalized_kept ph r h
  · intro h
    exact dget_enrichPure_hash_set ph r h
  · intro h
    exact dget_enrichPure_hash_kept ph r h

/-- Witness for C9: a recipe with a foreign field (`title`), truthy `tags`
and truthy `cooking_time_minutes` keeps all three unchanged. -/
theorem claim9_witness :
    dget (enrichPure pyHash0 [(kTitle, Val.str ("T").data),
      (kTags, Val.list [Val.str ("x").data]), (kCookingTime, Val.int 30)]) kTitle =
      some (Val.str ("T").data) := by
  have h := (claim9_amended pyHash0 [(kTitle, Val.str ("T").data),
    (kTags, Val.list [Val.str ("x").data]), (kCookingTime, Val.int 30)]
    (Or.inl (by decide))).2.1
  rw [h kTitle (by decide) (by decide) (by decide) (by decide) (by decide) (by decide)]
  decide

/-! ## C3: failure containment in enrich_recipe_data -/

/-- C3 is false as stated: a recipe whose `ingredients` is the number 5 does
not yield an enriched batch — `len(5)` in the complexity step aborts the
whole batch, which falls back to the unmodified input (no `complexity` key on
the output record). -/
theorem claim3_counterexample :
    enrichRecipeData pyHash0 [[(kIngredients, Val.int 5), (kTitle, Val.str ("t").data)]] =
      [[(kIngredients, Val.int 5), (kTitle, Val.str ("t").data)]] ∧
    dget ((enrichRecipeData pyHash0
      [[(kIngredients, Val.int 5), (kTitle, Val.str ("t").data)]]).headD [])
      kComplexity = Option.none := by decide

theorem enrichOne_int_error (ph : LC → ℤ) (r : Dict) (n : ℤ)
    (h : dget r kIngredients = some (Val.int n)) (hn : n ≠ 0) :
    enrichOneE ph r = .error PyErr.typeError := by
  have hcx : complexityE r = .error PyErr.typeError := by
    have ht : truthy (Val.int n) = true := by simp [truthy, hn]
    simp [complexityE, h, ht, pyLen]
  simp only [enrichOneE, hcx]

/-- C3 (amended): `enrich_recipe_data` never raises, but only
`normalized_ingredients` is protected per-field (and `preprocess_ingredients`
itself falls back to its raw input on a non-iterable value); a failure in any
other derived-field computation — e.g. `len()` on a truthy numeric
`ingredients` during complexity — aborts the whole batch, which is returned
unmodified; otherwise the batch is the per-recipe enrichment. -/
theorem claim3_amended :
    (∀ (ph : LC → ℤ) (pre post : List Dict) (r : Dict) (n : ℤ),
      dget r kIngredients = some (Val.int n) → n ≠ 0 →
      enrichRecipeData ph (pre ++ r :: post) = pre ++ r :: post) ∧
    (∀ (ph : LC → ℤ) (rs : List Dict),
      enrichRecipeData ph rs = rs ∨
        rs.mapM (enrichOneE ph) = .ok (enrichRecipeData ph rs)) ∧
    (∀ v : Val, truthy v = true → (∀ l, v ≠ Val.list l) → (∀ s, v ≠ Val.str s) →
      preprocessVal v = v) := by
  refine ⟨?_, ?_, ?_⟩
  · intro ph pre post r n h hn
    have herr := enrichOne_int_error ph r n h hn
    have hmapM := mapM_error (enrichOneE ph) (pre ++ r :: post) r (by simp) herr
    rw [enrichRecipeData, hmapM]
    have hne : (pre ++ r :: post).isEmpty = false := by
      cases pre <;> rfl
    rw [hne]
    rfl
  · intro ph rs
    rcases hE : rs.isEmpty with _ | _
    · rcases hm : rs.mapM (enrichOneE ph) with e | l
      · left
        rw [enrichRecipeData, hE, hm]
        rfl
      · right
        rw [enrichRecipeData, hE, hm]
        rfl
    · left
      have : rs = [] := by
        cases rs
        · rfl
        · cases hE
      rw [this]
      rfl
  · intro v ht hl hs
    cases v <;> simp_all [preprocessVal, pyIter, truthy]

/-- Witness for C3: a two-recipe batch where the second recipe has
`ingredients = 5`; the whole batch comes back unchanged. -/
theorem claim3_witness :
    enrichRecipeData pyHash0 [[(kTitle, Val.str ("ok").data)],
      [(kIngredients, Val.int 5)]] =
    [[(kTitle, Val.str ("ok").data)], [(kIngredients, Val.int 5)]] := by
  exact claim3_amended.1 pyHash0 [[(kTitle, Val.str ("ok").data)]] []
    [(kIngredients, Val.int 5)] 5 (by decide) (by decide)

/-! ## C10: the ingredient grouping is an order-preserving partition -/

theorem glook_gAppend_self (d : GDict) (k : String) (v : Val) :
    glook (gAppend d k v) k = glook d k ++ [v] := by
  induction d with
  | nil => simp [gAppend, glook, List.find?]
  | cons p t ih =>
    by_cases h : p.1 = k
    · simp [gAppend, glook, List.find?, h]
    · have hb : (p.1 == k) = false := by simpa using h
      simpa [gAppend, glook, List.find?, hb] using ih

theorem glook_gAppend_ne (d : GDict) (k k' : String) (v : Val) (h : k' ≠ k) :
    glook (gAppend d k v) k' = glook d k' := by
  induction d with
  | nil =>
    have hb : (k == k') = false := by simpa using (Ne.symm h)
    simp [gAppend, glook, List.find?, hb]
  | cons p t ih =>
    by_cases hp : p.1 = k
    · have hb : (p.1 == k) = true := by simpa using hp
      have hbk : (p.1 == k') = false := by
        simp [hp]
        exact Ne.symm h
      have hkk' : (k == k') = false := by simpa using (Ne.symm h)
      simp [gAppend, hb, glook, List.find?, hbk, hkk', hp]
    · have hb : (p.1 == k) = false := by simpa using hp
      by_cases hk : p.1 = k'
      · have hbk : (p.1 == k') = true := by simpa using hk
        simp [gAppend, hb, glook, List.find?, hbk]
      · have hbk : (p.1 == k') = false := by simpa using hk
        simpa [gAppend, hb, glook, List.find?, hbk] using ih

theorem mem_keys_gAppend (d : GDict) (k : String) (v : Val) (a : String) :
    a ∈ (gAppend d k v).map Prod.fst ↔ a ∈ d.map Prod.fst ∨ a = k := by
  induction d with
  | nil => simp [gAppend]
  | cons p t ih =>
    by_cases h : p.1 = k
    · have hb : (p.1 == k) = true := by simpa using h
      simp only [gAppend, hb, if_true, List.map_cons, List.mem_cons]
      constructor
      · exact fun h1 => Or.inl h1
      · rintro (h1 | h1)
        · exact h1
        · exact Or.inl (by rw [h1, ← h])
    · have hb : (p.1 == k) = false := by simpa using h
      simp only [gAppend, hb, Bool.false_eq_true, if_false, List.map_cons, List.mem_cons, ih]
      tauto

theorem nodup_keys_gAppend (d : GDict) (k : String) (v : Val)
    (h : (d.map Prod.fst).Nodup) : ((gAppend d k v).map Prod.fst).Nodup := by
  induction d with
  | nil => simp [gAppend]
  | cons p t ih =>
    obtain ⟨hp, ht⟩ : p.1 ∉ t.map Prod.fst ∧ (t.map Prod.fst).Nodup := by
      rw [List.map_cons, List.nodup_cons] at h
      exact h
    by_cases hk : p.1 = k
    · have hb : (p.1 == k) = true := by simpa using hk
      simp only [gAppend, hb, if_true, List.map_cons]
      exact List.nodup_cons.mpr ⟨hp, ht⟩
    · have hb : (p.1 == k) = false := by simpa using hk
      simp only [gAppend, hb, Bool.false_eq_true, if_false, List.map_cons]
      refine List.nodup_cons.mpr ⟨?_, ih ht⟩
      intro hmem
      rcases (mem_keys_gAppend t k v p.1).mp hmem with h1 | h1
      · exact hp h1
      · exact hk h1

theorem mem_entry_glook (d : GDict) (p : String × List Val) (h : p ∈ d)
    (hn : (d.map Prod.fst).Nodup) : p.2 = glook d p.1 := by
  induction d with
  | nil => cases h
  | cons q t ih =>
    obtain ⟨hq, ht⟩ : q.1 ∉ t.map Prod.fst ∧ (t.map Prod.fst).Nodup := by
      rw [List.map_cons, List.nodup_cons] at hn
      exact hn
    rcases List.mem_cons.mp h with rfl | hmem
    · simp [glook, List.find?]
    · have hne : (q.1 == p.1) = false := by
        have : p.1 ∈ t.map Prod.fst := List.mem_map.mpr ⟨p, hmem, rfl⟩
        simp only [beq_eq_false_iff_ne, ne_eq]
        intro heq
        exact hq (heq ▸ this)
      simpa [glook, List.find?, hne] using ih hmem ht

theorem glook_all_nil (d : GDict) (h : ∀ p ∈ d, p.2 = ([] : List Val)) (k : String) :
    glook d k = [] := by
  induction d with
  | nil => rfl
  | cons q t ih =>
    rcases hb : (q.1 == k) with _ | _
    · simpa [glook, List.find?, hb] using ih (fun p hp => h p (by simp [hp]))
    · simpa [glook, List.find?, hb] using h q (by simp)

theorem buildGroups_invariant (l : List Val) : ∀ (d : GDict) (seen : List Val),
    (∀ k, glook d k = seen.filter (fun x => groupOf x == k)) →
    (d.map Prod.fst).Nodup →
    (∀ x ∈ seen, groupOf x ∈ d.map Prod.fst) →
    (∀ k, glook (l.foldl (fun d x => gAppend d (groupOf x) x) d) k =
        (seen ++ l).filter (fun x => groupOf x == k)) ∧
    ((l.foldl (fun d x => gAppend d (groupOf x) x) d).map Prod.fst).Nodup ∧
    (∀ x ∈ seen ++ l,
      groupOf x ∈ (l.foldl (fun d x => gAppend d (groupOf x) x) d).map Prod.fst) := by
  induction l with
  | nil =>
    intro d seen h1 h2 h3
    simp only [List.foldl_nil, List.append_nil]
    exact ⟨h1, h2, h3⟩
  | cons x xs ih =>
    intro d seen h1 h2 h3
    have h1' : ∀ k, glook (gAppend d (groupOf x) x) k =
        (seen ++ [x]).filter (fun y => groupOf y == k) := by
      intro k
      by_cases hk : groupOf x = k
      · rw [← hk, glook_gAppend_self, h1 (groupOf x), List.filter_append]
        simp
      · rw [glook_gAppend_ne d (groupOf x) k x (Ne.symm hk), h1 k, List.filter_append]
        have : (groupOf x == k) = false := by simpa using hk
        simp [this]
    have h2' := nodup_keys_gAppend d (groupOf x) x h2
    have h3' : ∀ y ∈ seen ++ [x], groupOf y ∈ (gAppend d (groupOf x) x).map Prod.fst := by
      intro y hy
      rcases List.mem_append.mp hy with hy | hy
      · exact (mem_keys_gAppend d (groupOf x) x (groupOf y)).mpr (Or.inl (h3 y hy))
      · have : y = x := by simpa using hy
        subst this
        exact (mem_keys_gAppend d (groupOf y) y (groupOf y)).mpr (Or.inr rfl)
    have hmain := ih (gAppend d (groupOf x) x) (seen ++ [x]) h1' h2' h3'
    rw [List.append_assoc] at hmain
    simp only [List.singleton_append] at hmain
    simp only [List.foldl_cons]
    exact hmain

/-- C10: for every non-empty ingredient list, the `ingredient_groups` mapping
is a partition preserving order and multiplicity: every listed group `p`
holds exactly the input elements (original values, input order) whose first
matching food group is `p.1`, every listed group is non-empty, group names
are distinct, and every input element's group is listed. -/
theorem claim10_groups (ings : List Val) (hne : ings ≠ []) :
    (∀ p ∈ analyzeGroups ings,
      p.2 = ings.filter (fun x => groupOf x == p.1) ∧ p.2 ≠ []) ∧
    ((analyzeGroups ings).map Prod.fst).Nodup ∧
    (∀ x ∈ ings, ∃ p ∈ analyzeGroups ings, p.1 = groupOf x) := by
  have hE : ings.isEmpty = false := by
    cases ings
    · exact absurd rfl hne
    · rfl
  have hbase1 : ∀ k, glook groupsInit k = ([] : List Val).filter (fun x => groupOf x == k) := by
    intro k
    rw [glook_all_nil groupsInit (by decide) k]
    rfl
  obtain ⟨hg, hnd, hmem⟩ :=
    buildGroups_invariant ings groupsInit [] hbase1 (by decide) (by simp)
  have hbuild : buildGroups ings = ings.foldl (fun d x => gAppend d (groupOf x) x) groupsInit :=
    rfl
  have hAG : analyzeGroups ings = (buildGroups ings).filter (fun p => !p.2.isEmpty) := by
    rw [analyzeGroups, hE]
    rfl
  refine ⟨?_, ?_, ?_⟩
  · intro p hp
    rw [hAG] at hp
    have hp1 := List.mem_of_mem_filter hp
    have hp2 := List.of_mem_filter hp
    rw [hbuild] at hp1
    have hval : p.2 = ings.filter (fun x => groupOf x == p.1) := by
      have := mem_entry_glook _ p hp1 hnd
      rw [this]
      simpa using hg p.1
    refine ⟨hval, ?_⟩
    intro hnil
    rw [hnil] at hp2
    cases hp2
  · rw [hAG]
    exact List.Nodup.sublist (List.Sublist.map Prod.fst (List.filter_sublist _)) hnd
  · intro x hx
    have hk := hmem x (by simpa using hx)
    rcases List.mem_map.mp hk with ⟨p, hp, hfst⟩
    refine ⟨p, ?_, hfst⟩
    rw [hAG]
    apply List.mem_filter.mpr
    refine ⟨by rw [hbuild]; exact hp, ?_⟩
    have hval : p.2 = ings.filter (fun y => groupOf y == p.1) := by
      have := mem_entry_glook _ p hp hnd
      rw [this]
      simpa using hg p.1
    have hxin : x ∈ p.2 := by
      rw [hval]
      apply List.mem_filter.mpr
      exact ⟨hx, by simp [hfst]⟩
    cases hp2 : p.2 with
    | nil => rw [hp2] at hxin; cases hxin
    | cons a t => simp

/-- Witness for C10 at `["tomato", "weird"]`: the `Vegetables` group is
exactly the filtered input. -/
theorem claim10_witness :
    ([Val.str ("tomato").data] : List Val) =
      ([Val.str ("tomato").data, Val.str ("weird").data] : List Val).filter
        (fun x => groupOf x == ("Vegetables" : String)) ∧
    ([Val.str ("tomato").data] : List Val) ≠ [] := by
  have h := (claim10_groups [Val.str ("tomato").data, Val.str ("weird").data]
    (by decide)).1 (("Vegetables" : String), [Val.str ("tomato").data]) (by decide)
  exact ⟨h.1, h.2⟩

/-! ## C1: tie handling of the descending score sort -/

/-- C1 counterexample: two recipes whose FINAL (rounded) `ai_relevance_score`
values are both `0.2` come out in the order `[2, 1]`, the reverse of their
input order `[1, 2]`: the sort runs on the unrounded scores
(`9999999/10000000` vs `1`, normalized popularity), and rounding to 4 decimals
afterwards collapses them, so equal final scores need not preserve input
order.  The two unrounded sort keys are distinct, so every correct descending
sort — whatever it does on ties — produces this output; the counterexample
does not depend on how the model orders tied keys. -/
theorem claim1_counterexample :
    (recommend [[(kId, Val.int 1), (kPopularity, Val.int 9999999)],
        [(kId, Val.int 2), (kPopularity, Val.int 10000000)]] Option.none []).map
      (fun r => (dget r kId, dget r kAiScore)) =
    [(some (Val.int 2), some (Val.float (1 / 5))),
     (some (Val.int 1), some (Val.float (1 / 5)))] := by decide

/-- C1 (amended): the sort key of `recommend` is the UNROUNDED
`ai_relevance_score`, and the 4-decimal rounding of the displayed score is
applied only AFTER sorting — so recipes with equal final (rounded) scores
need not appear in input order, per the counterexample.  No tie-break policy
can be claimed at all: `df.sort_values` is called with pandas' default
`kind='quicksort'`, which does not specify the order of tied keys (only
`mergesort`/`stable` are documented stable).  What the code does guarantee on
every successful non-empty batch, independently of tie order: the output is
the ranked finalization of some permutation of the scored rows arranged in
descending order of the unrounded score. -/
theorem claim1_amended (rs : List Dict) (prefs : Option Prefs) (ings : List Val)
    (sc : List SR) (hne : rs.isEmpty = false)
    (hok : scoreAllE rs prefs ings = .ok sc) :
    ∃ sorted : List SR, List.Perm sorted sc ∧
      List.Pairwise (fun a b => b.score ≤ a.score) sorted ∧
      recommend rs prefs ings = finalizeOut sorted := by
  refine ⟨sortStable srGt sc, sortStable_perm srGt sc, ?_, ?_⟩
  · exact sortStable_pairwise SR.score sc
  · have hrE : recommendE rs prefs ings = .ok (finalizeOut (sortStable srGt sc)) := by
      simp only [recommendE, hne, Bool.false_eq_true, if_false, hok]
    simp only [recommend, hrE]

/-- Witness for C1 at a concrete two-recipe batch with no signals (both rows
score 0): the output is the ranked finalization of a descending-sorted
permutation of the two scored rows. -/
theorem claim1_witness :
    ∃ sorted : List SR,
      List.Perm sorted
        [{ row := [(kId, Val.int 1)], score := 0, im := Option.none, ps := Option.none,
           np := Option.none, cx := Option.none },
         { row := [(kId, Val.int 2)], score := 0, im := Option.none, ps := Option.none,
           np := Option.none, cx := Option.none }] ∧
      List.Pairwise (fun a b => b.score ≤ a.score) sorted ∧
      recommend [[(kId, Val.int 1)], [(kId, Val.int 2)]] Option.none [] =
        finalizeOut sorted :=
  claim1_amended [[(kId, Val.int 1)], [(kId, Val.int 2)]] Option.none []
    [{ row := [(kId, Val.int 1)], score := 0, im := Option.none, ps := Option.none,
       np := Option.none, cx := Option.none },
     { row := [(kId, Val.int 2)], score := 0, im := Option.none, ps := Option.none,
       np := Option.none, cx := Option.none }] rfl rfl

/-! ## C8: suggestion tally invariants -/

theorem keys_incrKey (d : List (LC × ℕ)) (k k' : LC)
    (h : k' ∈ (incrKey d k).map Prod.fst) : k' ∈ d.map Prod.fst ∨ k' = k := by
  induction d with
  | nil =>
    right
    simpa [incrKey] using h
  | cons p t ih =>
    by_cases hb : (p.1 == k) = true
    · simp only [incrKey, hb, if_true, List.map_cons, List.mem_cons] at h ⊢
      tauto
    · have hb' : (p.1 == k) = false := by
        cases hx : (p.1 == k)
        · rfl
        · exact absurd hx hb
      simp only [incrKey, hb', Bool.false_eq_true, if_false, List.map_cons, List.mem_cons]
        at h ⊢
      rcases h with h | h
      · exact Or.inl (Or.inl h)
      · rcases ih h with h | h
        · exact Or.inl (Or.inr h)
        · exact Or.inr h

theorem keys_procPair (ings : List Val) (il : LC) (d : List (LC × ℕ)) (pr k : LC)
    (h : k ∈ (procPair ings il d pr).map Prod.fst) :
    k ∈ d.map Prod.fst ∨ ings.any (fun i => hasSub k (lowerStr (pyStr i))) = false := by
  by_cases hc :
      (!hasSub pr il && !(ings.any (fun i => hasSub pr (lowerStr (pyStr i))))) = true
  · rw [procPair, if_pos hc] at h
    have h2 : ings.any (fun i => hasSub pr (lowerStr (pyStr i))) = false := by
      cases hx : ings.any (fun i => hasSub pr (lowerStr (pyStr i)))
      · rfl
      · rw [hx] at hc
        simp at hc
    rcases keys_incrKey d pr k h with h | h
    · exact Or.inl h
    · subst h
      exact Or.inr h2
  · rw [procPair, if_neg hc] at h
    exact Or.inl h

theorem keys_foldl_procPair (ings : List Val) (il : LC) (prs : List LC) :
    ∀ (d : List (LC × ℕ)) (k : LC), k ∈ (prs.foldl (procPair ings il) d).map Prod.fst →
      k ∈ d.map Prod.fst ∨ ings.any (fun i => hasSub k (lowerStr (pyStr i))) = false := by
  induction prs with
  | nil => exact fun d k h => Or.inl h
  | cons pr t ih =>
    intro d k h
    simp only [List.foldl_cons] at h
    rcases ih (procPair ings il d pr) k h with h | h
    · exact keys_procPair ings il d pr k h
    · exact Or.inr h

theorem keys_foldl_pairs (ings : List Val) (il : LC) (ps : List (LC × List LC)) :
    ∀ (d : List (LC × ℕ)) (k : LC),
      k ∈ (ps.foldl (fun d2 kp =>
          if hasSub kp.1 il then kp.2.foldl (procPair ings il) d2 else d2) d).map Prod.fst →
      k ∈ d.map Prod.fst ∨ ings.any (fun i => hasSub k (lowerStr (pyStr i))) = false := by
  induction ps with
  | nil => exact fun d k h => Or.inl h
  | cons kp t ih =>
    intro d k h
    simp only [List.foldl_cons] at h
    rcases ih _ k h with h | h
    · by_cases hc : hasSub kp.1 il = true
      · rw [if_pos hc] at h
        exact keys_foldl_procPair ings il kp.2 d k h
      · rw [if_neg hc] at h
        exact Or.inl h
    · exact Or.inr h

theorem keys_tallyOne (ings0 : List Val) (d : List (LC × ℕ)) (ing : Val) (k : LC)
    (h : k ∈ (tallyOne ings0 d ing).map Prod.fst) :
    k ∈ d.map Prod.fst ∨ ings0.any (fun i => hasSub k (lowerStr (pyStr i))) = false := by
  rw [tallyOne] at h
  exact keys_foldl_pairs ings0 (lowerStr (pyStr ing)) PAIRINGS d k h

theorem keys_tally_ok (ings0 : List Val) (ings : List Val) :
    ∀ (d : List (LC × ℕ)) (k : LC),
      (∀ k' ∈ d.map Prod.fst, ings0.any (fun i => hasSub k' (lowerStr (pyStr i))) = false) →
      k ∈ (ings.foldl (tallyOne ings0) d).map Prod.fst →
      ings0.any (fun i => hasSub k (lowerStr (pyStr i))) = false := by
  induction ings with
  | nil => exact fun d k hinv h => hinv k h
  | cons ing t ih =>
    intro d k hinv h
    simp only [List.foldl_cons] at h
    refine ih (tallyOne ings0 d ing) k ?_ h
    intro k' hk'
    rcases keys_tallyOne ings0 d ing k' hk' with hk' | hk'
    · exact hinv k' hk'
    · exact hk'

theorem nodup_keys_incrKey (d : List (LC × ℕ)) (k : LC)
    (h : (d.map Prod.fst).Nodup) : ((incrKey d k).map Prod.fst).Nodup := by
  induction d with
  | nil => simp [incrKey]
  | cons p t ih =>
    obtain ⟨hp, ht⟩ : p.1 ∉ t.map Prod.fst ∧ (t.map Prod.fst).Nodup := by
      rw [List.map_cons, List.nodup_cons] at h
      exact h
    by_cases hb : (p.1 == k) = true
    · simp only [incrKey, hb, if_true, List.map_cons]
      exact List.nodup_cons.mpr ⟨hp, ht⟩
    · have hb' : (p.1 == k) = false := by
        cases hx : (p.1 == k)
        · rfl
        · exact absurd hx hb
      simp only [incrKey, hb', Bool.false_eq_true, if_false, List.map_cons]
      refine List.nodup_cons.mpr ⟨?_, ih ht⟩
      intro hmem
      rcases keys_incrKey t k p.1 hmem with hmem | hmem
      · exact hp hmem
      · rw [hmem] at hb'
        simp at hb'

theorem nodup_keys_procPair (ings : List Val) (il : LC) (d : List (LC × ℕ)) (pr : LC)
    (h : (d.map Prod.fst).Nodup) : ((procPair ings il d pr).map Prod.fst).Nodup := by
  rw [procPair]
  by_cases hc :
      (!hasSub pr il && !(ings.any (fun i => hasSub pr (lowerStr (pyStr i))))) = true
  · rw [if_pos hc]
    exact nodup_keys_incrKey d pr h
  · rw [if_neg hc]
    exact h

theorem nodup_keys_foldl_procPair (ings : List Val) (il : LC) (prs : List LC) :
    ∀ d : List (LC × ℕ), (d.map Prod.fst).Nodup →
      ((prs.foldl (procPair ings il) d).map Prod.fst).Nodup := by
  induction prs with
  | nil => exact fun d h => h
  | cons pr t ih =>
    intro d h
    simp only [List.foldl_cons]
    exact ih (procPair ings il d pr) (nodup_keys_procPair ings il d pr h)

theorem nodup_keys_foldl_pairs (ings : List Val) (il : LC) (ps : List (LC × List LC)) :
    ∀ d : List (LC × ℕ), (d.map Prod.fst).Nodup →
      ((ps.foldl (fun d2 kp =>
          if hasSub kp.1 il then kp.2.foldl (procPair ings il) d2 else d2) d).map
        Prod.fst).Nodup := by
  induction ps with
  | nil => exact fun d h => h
  | cons kp t ih =>
    intro d h
    simp only [List.foldl_cons]
    refine ih _ ?_
    by_cases hc : hasSub kp.1 il = true
    · rw [if_pos hc]
      exact nodup_keys_foldl_procPair ings il kp.2 d h
    · rw [if_neg hc]
      exact h

theorem nodup_keys_tallySuggest (ings : List Val) :
    ((tallySuggest ings).map Prod.fst).Nodup := by
  rw [tallySuggest]
  have hgen : ∀ (l : List Val) (d : List (LC × ℕ)), (d.map Prod.fst).Nodup →
      ((l.foldl (tallyOne ings) d).map Prod.fst).Nodup := by
    intro l
    induction l with
    | nil => exact fun d h => h
    | cons ing t ih =>
      intro d h
      simp only [List.foldl_cons]
      refine ih _ ?_
      rw [tallyOne]
      exact nodup_keys_foldl_pairs ings (lowerStr (pyStr ing)) PAIRINGS d h
  exact hgen ings [] (by simp)

/-- C8 counterexample: with user ingredients `["tomato", "tomato juice",
"chicken", "fish", "onion"]` the function returns `["garlic", "olive oil",
"basil", "mozzarella", "lemon"]`, yet `mozzarella` is proposed by only 1
matched pairing-table key (`tomato`) while `lemon` is proposed by 2
(`chicken` and `fish`): the output is NOT sorted by the number of matched
keys that proposed a suggestion — the tally counts one proposal per
(matching user ingredient, key) pair, so the two tomato-matching
ingredients double `mozzarella`'s count. -/
theorem claim8_counterexample :
    suggestAdditional ((["tomato", "tomato juice", "chicken", "fish", "onion"]).map
        (fun s => Val.str s.data)) =
      [("garlic").data, ("olive oil").data, ("basil").data, ("mozzarella").data,
       ("lemon").data] ∧
    keyProposerCount ((["tomato", "tomato juice", "chicken", "fish", "onion"]).map
        (fun s => Val.str s.data)) (("mozzarella").data) = 1 ∧
    keyProposerCount ((["tomato", "tomato juice", "chicken", "fish", "onion"]).map
        (fun s => Val.str s.data)) (("lemon").data) = 2 := by decide

/-- C8 (amended): `suggest_additional_ingredients` returns at most 5 distinct
suggestions, none contained (case-insensitively) as a substring in any user
ingredient, and the output is the key projection of a selection of tally
entries sorted descending by the TALLY count — one proposal per (matching
user ingredient, pairing key) pair, not per distinct matched key.
`suggest(["tomato", "garlic"])` is non-empty and the empty input yields
`[]`. -/
theorem claim8_amended (ings : List Val) (hne : ings.isEmpty = false) :
    (suggestAdditional ings).length ≤ 5 ∧
    (suggestAdditional ings).Nodup ∧
    (∀ s ∈ suggestAdditional ings, ∀ i ∈ ings, hasSub s (lowerStr (pyStr i)) = false) ∧
    (∃ pl : List (LC × ℕ), List.Pairwise (fun a b => b.2 ≤ a.2) pl ∧
      (∀ p ∈ pl, p ∈ tallySuggest ings) ∧
      suggestAdditional ings = pl.map Prod.fst) ∧
    suggestAdditional [Val.str ("tomato").data, Val.str ("garlic").data] ≠ [] ∧
    suggestAdditional ([] : List Val) = [] := by
  have hsug : suggestAdditional ings =
      ((sortStable suggGt (tallySuggest ings)).take 5).map Prod.fst := by
    rw [suggestAdditional, hne]
    simp
  have hperm : List.Perm (sortStable suggGt (tallySuggest ings)) (tallySuggest ings) :=
    sortStable_perm suggGt (tallySuggest ings)
  refine ⟨?_, ?_, ?_, ?_, by decide, by decide⟩
  · rw [hsug, List.length_map]
    exact le_trans (List.length_take_le 5 _) (le_refl 5)
  · rw [hsug]
    have hnd : ((sortStable suggGt (tallySuggest ings)).map Prod.fst).Nodup :=
      ((hperm.map Prod.fst).nodup_iff).mpr (nodup_keys_tallySuggest ings)
    exact List.Nodup.sublist (List.Sublist.map Prod.fst (List.take_sublist 5 _)) hnd
  · intro s hs i hi
    rw [hsug] at hs
    rcases List.mem_map.mp hs with ⟨p, hp, hfst⟩
    have hp' : p ∈ tallySuggest ings := hperm.mem_iff.mp (List.mem_of_mem_take hp)
    have hkey : s ∈ (tallySuggest ings).map Prod.fst := by
      exact List.mem_map.mpr ⟨p, hp', hfst⟩
    have hok := keys_tally_ok ings ings [] s (by simp) (by rw [tallySuggest] at hkey; exact hkey)
    have := List.any_eq_false.mp hok i hi
    cases hx : hasSub s (lowerStr (pyStr i))
    · rfl
    · exact absurd hx this
  · refine ⟨(sortStable suggGt (tallySuggest ings)).take 5, ?_, ?_, hsug⟩
    · exact List.Pairwise.sublist (List.take_sublist 5 _)
        (sortStable_pairwise Prod.snd (tallySuggest ings))
    · intro p hp
      exact hperm.mem_iff.mp (List.mem_of_mem_take hp)

/-- Witness for C8 at `["tomato"]`: at most 5 distinct suggestions, `tomato`
itself excluded, empty input empty. -/
theorem claim8_witness :
    (suggestAdditional [Val.str ("tomato").data]).length ≤ 5 ∧
    (suggestAdditional [Val.str ("tomato").data]).Nodup ∧
    suggestAdditional ([] : List Val) = [] := by
  have h := claim8_amended [Val.str ("tomato").data] (by decide)
  exact ⟨h.1, h.2.1, h.2.2.2.2.2⟩

/-! ## C5: the preference-score formula -/

theorem lowTags_map (tags : List LC) : lowTags (tags.map Val.str) = .ok (tags.map lowerStr) := by
  induction tags with
  | nil => rfl
  | cons t rest ih =>
    simp only [List.map_cons, lowTags, ih]

theorem dietFold_count (rtags : List LC) (drs : List LC) :
    ∀ acc : ℚ, dietFold rtags acc (drs.map Val.str) =
      .ok (acc - 7 / 10 * (drs.countP (fun s => rtags.contains (lowerStr s)) : ℚ)) := by
  induction drs with
  | nil =>
    intro acc
    simp only [List.map_nil, dietFold, List.countP_nil]
    exact congrArg Except.ok (by push_cast; ring)
  | cons s rest ih =>
    intro acc
    simp only [List.map_cons, dietFold]
    rw [ih]
    refine congrArg Except.ok ?_
    by_cases hc : rtags.contains (lowerStr s) = true
    · simp only [hc, if_true, List.countP_cons, hc]
      push_cast
      ring
    · have hc' : rtags.contains (lowerStr s) = false := by
        cases hx : rtags.contains (lowerStr s)
        · rfl
        · exact absurd hx hc
      simp only [hc', Bool.false_eq_true, if_false, List.countP_cons, hc']
      push_cast
      ring

theorem dietPart_formula (row : Dict) (p : Prefs) (drs tags : List LC)
    (hdr : p.dietary_restrictions = some (drs.map Val.str))
    (htv : dget row kTags = some (Val.list (tags.map Val.str))) :
    dietPart row p =
      .ok (0 - 7 / 10 * (drs.countP (fun s => (tags.map lowerStr).contains (lowerStr s)) : ℚ)) := by
  cases tags with
  | nil =>
    simp only [dietPart, hdr, htv, List.map_nil, truthy, List.isEmpty_nil, Bool.not_true,
      Bool.false_eq_true, if_false]
    exact dietFold_count [] drs 0
  | cons t rest =>
    simp only [dietPart, hdr, htv, List.map_cons, truthy, List.isEmpty_cons, Bool.not_false,
      if_true, pyIter]
    rw [← List.map_cons Val.str t rest, lowTags_map]
    exact dietFold_count _ drs 0

theorem ratFold_sum (rid : LC) (ins : List Interaction)
    (hins : ∀ i ∈ ins, ∀ rv, i.rating = some rv → (numView rv).isSome = true) :
    ∀ acc : ℚ, ratFold rid acc ins = .ok (acc + ratingSum ins rid) := by
  induction ins with
  | nil =>
    intro acc
    simp only [ratFold, ratingSum, List.filter_nil, List.map_nil, List.sum_nil]
    exact congrArg Except.ok (by ring)
  | cons i rest ih =>
    intro acc
    have hrest := ih (fun j hj => hins j (List.mem_cons_of_mem i hj))
    by_cases hm : (pyStr (i.recipe_id.getD (Val.str [])) == rid) = true
    · rcases hr : i.rating with _ | rv
      · simp only [ratFold, hm, if_true, hr]
        rw [hrest acc]
        refine congrArg Except.ok ?_
        simp only [ratingSum, List.filter_cons, hm, if_true, List.map_cons, List.sum_cons, hr]
        simp only [Option.getD_none, numView]
        ring
      · obtain ⟨q, hq⟩ := Option.isSome_iff_exists.mp (hins i (List.mem_cons_self i rest) rv hr)
        simp only [ratFold, hm, if_true, hr, hq]
        rw [hrest (acc + q / 5 * (4 / 5))]
        refine congrArg Except.ok ?_
        simp only [ratingSum, List.filter_cons, hm, if_true, List.map_cons, List.sum_cons, hr,
          Option.getD_some, hq]
        ring
    · have hm' : (pyStr (i.recipe_id.getD (Val.str [])) == rid) = false := by
        cases hx : (pyStr (i.recipe_id.getD (Val.str [])) == rid)
        · rfl
        · exact absurd hx hm
      simp only [ratFold, hm', Bool.false_eq_true, if_false]
      rw [hrest acc]
      refine congrArg Except.ok ?_
      simp only [ratingSum, List.filter_cons, hm', Bool.false_eq_true, if_false]

theorem ratPart_formula (rid : LC) (p : Prefs) (ins : List Interaction)
    (hpi : p.past_interactions = some ins)
    (hins : ∀ i ∈ ins, ∀ rv, i.rating = some rv → (numView rv).isSome = true) :
    ratPart rid p = .ok (ratingSum ins rid) := by
  simp only [ratPart, hpi]
  rw [ratFold_sum rid ins hins 0, zero_add]

/-- C5: when the preferences carry a `favorites` key (and well-typed
restriction, tag and rating values), the per-recipe preference score is
exactly `max(fav + cuisine + diet + interactions, 0)`: `1` if the stringified
recipe id is among the stringified favorites, `+1/2` if the row's cuisine is
among the cuisine preferences, `-7/10` per dietary restriction whose
lowercase form is among the lowercase tags, `+ rating/5 * 4/5` per
past interaction matching the id under string coercion, floored at `0`; and
when the `favorites` key is absent the whole preference signal drops out of
the score computation. -/
theorem claim5_pref_formula (row : Dict) (favs cps : List Val) (drs tags : List LC)
    (ins : List Interaction)
    (htv : dget row kTags = some (Val.list (tags.map Val.str)))
    (hins : ∀ i ∈ ins, ∀ rv, i.rating = some rv → (numView rv).isSome = true) :
    (prefScoreE row ⟨some favs, some (drs.map Val.str), some cps, some ins⟩ =
      .ok (max
        ((if (favs.map pyStr).contains (pyStr ((dget row kId).getD (Val.str []))) then (1 : ℚ)
            else 0)
          + (match dget row kCuisine with
             | some cv => if cps.any (fun c => pyEq cv c) then (1 : ℚ) / 2 else 0
             | Option.none => 0)
          - 7 / 10 * (drs.countP (fun s => (tags.map lowerStr).contains (lowerStr s)) : ℚ)
          + ratingSum ins (pyStr ((dget row kId).getD (Val.str [])))) 0)) ∧
    (∀ (rs : List Dict) (uIngs : List Val) (dr cp : Option (List Val))
        (pin : Option (List Interaction)),
      scoreAllE rs (some ⟨Option.none, dr, cp, pin⟩) uIngs = scoreAllE rs Option.none uIngs) := by
  constructor
  · have hdiet := dietPart_formula row ⟨some favs, some (drs.map Val.str), some cps, some ins⟩
      drs tags rfl htv
    have hrat := ratPart_formula (pyStr ((dget row kId).getD (Val.str [])))
      ⟨some favs, some (drs.map Val.str), some cps, some ins⟩ ins rfl hins
    rcases hcv : dget row kCuisine with _ | cv
    · simp only [prefScoreE, hcv, hdiet, hrat]
      refine congrArg Except.ok ?_
      congr 1
      ring
    · simp only [prefScoreE, hcv, hdiet, hrat]
      refine congrArg Except.ok ?_
      congr 1
      ring
  · intro rs uIngs dr cp pin
    rfl

/-- Witness for C5: a favorite Italian recipe tagged `vegan` with a vegan
restriction and one past rating of 4 scores
`max(1 + 1/2 - 7/10 + 4/5 * 4/5, 0) = 36/25`. -/
theorem claim5_witness :
    prefScoreE [(kId, Val.int 7), (kTags, Val.list [Val.str ("vegan").data]),
        (kCuisine, Val.str ("italian").data)]
      ⟨some [Val.int 7], some [Val.str ("vegan").data], some [Val.str ("italian").data],
        some [⟨some (Val.int 7), some (Val.int 4)⟩]⟩ = .ok (36 / 25) := by
  have h := (claim5_pref_formula
    [(kId, Val.int 7), (kTags, Val.list [Val.str ("vegan").data]),
      (kCuisine, Val.str ("italian").data)]
    [Val.int 7] [Val.str ("italian").data] [("vegan").data] [("vegan").data]
    [⟨some (Val.int 7), some (Val.int 4)⟩]
    (by rfl)
    (by
      intro i hi rv hrv
      have hi' : i = (⟨some (Val.int 7), some (Val.int 4)⟩ : Interaction) := by
        simpa using hi
      subst hi'
      cases hrv
      rfl)).1
  exact h.trans (congrArg Except.ok (by decide))

/-! ## C2: character-level invariants of the normalization pipeline -/

theorem char_toNat_ofNat (n : ℕ) (h : Nat.isValidChar n) : (Char.ofNat n).toNat = n := by
  unfold Char.ofNat
  rw [dif_pos h]
  rfl

theorem pyLower_not_upper (c : Char) :
    ¬(65 ≤ (pyLower c).toNat ∧ (pyLower c).toNat ≤ 90) := by
  simp only [pyLower]
  by_cases h : 65 ≤ c.toNat ∧ c.toNat ≤ 90
  · rw [if_pos h]
    have hv : Nat.isValidChar (c.toNat + 32) := Or.inl (by omega)
    rw [char_toNat_ofNat (c.toNat + 32) hv]
    omega
  · rw [if_neg h]
    exact h

theorem goodCore_spec (c : Char) (h : goodCore c = true) :
    ¬(65 ≤ c.toNat ∧ c.toNat ≤ 90) ∧ c.toNat < 128 ∧ isPunctNH c = false ∧
      isDigitChar c = false := by
  simp only [goodCore, Bool.and_eq_true, Bool.not_eq_true', decide_eq_false_iff_not,
    decide_eq_true_eq] at h
  tauto

theorem goodCore_intro (c : Char) (hup : ¬(65 ≤ c.toNat ∧ c.toNat ≤ 90)) (hlt : c.toNat < 128)
    (hpu : isPunctNH c = false) (hdg : isDigitChar c = false) : goodCore c = true := by
  simp [goodCore, hup, hlt, hpu, hdg]

theorem cwGo_chars : ∀ (b : Bool) (s : LC) (c : Char), c ∈ cwGo b s → c ∈ s ∨ c = ' ' := by
  intro b s
  induction s generalizing b with
  | nil =>
    intro c hc
    simp [cwGo] at hc
  | cons a cs ih =>
    intro c hc
    simp only [cwGo] at hc
    by_cases hw : isWsChar a = true
    · rw [if_pos hw] at hc
      cases b with
      | true =>
        rw [if_pos rfl] at hc
        rcases ih true c hc with h | h
        · exact Or.inl (List.mem_cons_of_mem a h)
        · exact Or.inr h
      | false =>
        rw [if_neg (by simp)] at hc
        rcases List.mem_cons.mp hc with rfl | hc
        · exact Or.inr rfl
        · rcases ih true c hc with h | h
          · exact Or.inl (List.mem_cons_of_mem a h)
          · exact Or.inr h
    · rw [if_neg hw] at hc
      rcases List.mem_cons.mp hc with rfl | hc
      · exact Or.inl (List.mem_cons_self _ _)
      · rcases ih false c hc with h | h
        · exact Or.inl (List.mem_cons_of_mem a h)
        · exact Or.inr h

theorem dropTrailWs_subset : ∀ (s : LC) (c : Char), c ∈ dropTrailWs s → c ∈ s := by
  intro s
  induction s with
  | nil =>
    intro c hc
    simp [dropTrailWs] at hc
  | cons a cs ih =>
    intro c hc
    simp only [dropTrailWs] at hc
    by_cases hg : ((dropTrailWs cs).isEmpty && isWsChar a) = true
    · rw [if_pos hg] at hc
      simp at hc
    · rw [if_neg hg] at hc
      rcases List.mem_cons.mp hc with rfl | hc
      · exact List.mem_cons_self _ _
      · exact List.mem_cons_of_mem a (ih c hc)

theorem stripWs_chars (s : LC) (c : Char) (h : c ∈ stripWs s) : c ∈ s := by
  rw [stripWs] at h
  exact (List.dropWhile_sublist isWsChar).subset (dropTrailWs_subset _ c h)

theorem cleanText_chars (s : LC) : ∀ c ∈ cleanText s,
    ¬(65 ≤ c.toNat ∧ c.toNat ≤ 90) ∧ c.toNat < 128 ∧ isPunctNH c = false := by
  intro c hc
  rw [cleanText] at hc
  by_cases hne : s.isEmpty = true
  · rw [if_pos hne] at hc
    simp at hc
  · rw [if_neg hne] at hc
    have hc1 := stripWs_chars _ c hc
    rcases cwGo_chars false _ c hc1 with hc2 | rfl
    · rcases List.mem_map.mp hc2 with ⟨c0, hc0, rfl⟩
      have hlt : c0.toNat < 128 := by
        have := List.of_mem_filter hc0
        simpa using this
      have hc0m := List.mem_of_mem_filter hc0
      rcases List.mem_map.mp hc0m with ⟨c1, _, rfl⟩
      have hup := pyLower_not_upper c1
      by_cases hpu : isPunctNH (pyLower c1) = true
      · rw [if_pos hpu]
        refine ⟨by decide, by decide, by decide⟩
      · rw [if_neg hpu]
        exact ⟨hup, hlt, by
          cases hx : isPunctNH (pyLower c1)
          · rfl
          · exact absurd hx hpu⟩
    · refine ⟨by decide, by decide, by decide⟩

theorem sd_chars : ∀ (n : ℕ) (s : LC), s.length ≤ n →
    (∀ c ∈ sdMain s, c ∈ s ∧ isDigitChar c = false) ∧
    (∀ c ∈ sdRun1 s, c ∈ s ∧ isDigitChar c = false) ∧
    (∀ c ∈ sdRun2 s, c ∈ s ∧ isDigitChar c = false) := by
  intro n
  induction n with
  | zero =>
    intro s hs
    have hnil : s = [] := List.length_eq_zero.mp (Nat.le_zero.mp hs)
    subst hnil
    refine ⟨?_, ?_, ?_⟩ <;> intro c hc <;> simp [sdMain, sdRun1, sdRun2] at hc
  | succ n ih =>
    intro s hs
    cases s with
    | nil =>
      refine ⟨?_, ?_, ?_⟩ <;> intro c hc <;> simp [sdMain, sdRun1, sdRun2] at hc
    | cons a cs =>
      have hcs : cs.length ≤ n := by simpa using hs
      obtain ⟨ihM, ihR1, ihR2⟩ := ih cs hcs
      refine ⟨?_, ?_, ?_⟩
      · intro c hc
        simp only [sdMain] at hc
        by_cases hd : isDigitChar a = true
        · rw [if_pos hd] at hc
          obtain ⟨hm, hdg⟩ := ihR1 c hc
          exact ⟨List.mem_cons_of_mem a hm, hdg⟩
        · rw [if_neg hd] at hc
          rcases List.mem_cons.mp hc with rfl | hc
          · refine ⟨List.mem_cons_self _ _, ?_⟩
            cases hx : isDigitChar c
            · rfl
            · exact absurd hx hd
          · obtain ⟨hm, hdg⟩ := ihM c hc
            exact ⟨List.mem_cons_of_mem a hm, hdg⟩
      · intro c hc
        cases cs with
        | nil =>
          have hc1 : c ∈ (if isDigitChar a = true then sdRun1 []
              else if a = '/' ∨ a = '.' then [a] else a :: sdMain []) := hc
          by_cases hd : isDigitChar a = true
          · rw [if_pos hd] at hc1
            obtain ⟨hm, hdg⟩ := ihR1 c hc1
            exact ⟨List.mem_cons_of_mem a hm, hdg⟩
          · rw [if_neg hd] at hc1
            by_cases hsl : a = '/' ∨ a = '.'
            · rw [if_pos hsl] at hc1
              have : c = a := by simpa using hc1
              subst this
              refine ⟨List.mem_cons_self _ _, ?_⟩
              rcases hsl with rfl | rfl <;> decide
            · rw [if_neg hsl] at hc1
              rcases List.mem_cons.mp hc1 with rfl | hc1
              · refine ⟨List.mem_cons_self _ _, ?_⟩
                cases hx : isDigitChar c
                · rfl
                · exact absurd hx hd
              · obtain ⟨hm, hdg⟩ := ihM c hc1
                exact ⟨List.mem_cons_of_mem a hm, hdg⟩
        | cons d rest =>
          have hc1 : c ∈ (if isDigitChar a = true then sdRun1 (d :: rest)
              else if a = '/' ∨ a = '.' then
                (if isDigitChar d = true then sdRun2 rest else a :: d :: sdMain rest)
              else a :: sdMain (d :: rest)) := hc
          have hrest : rest.length ≤ n := by
            have := hcs
            simp at this
            omega
          obtain ⟨jM, _, jR2⟩ := ih rest hrest
          by_cases hd : isDigitChar a = true
          · rw [if_pos hd] at hc1
            obtain ⟨hm, hdg⟩ := ihR1 c hc1
            exact ⟨List.mem_cons_of_mem a hm, hdg⟩
          · rw [if_neg hd] at hc1
            by_cases hsl : a = '/' ∨ a = '.'
            · rw [if_pos hsl] at hc1
              by_cases hd2 : isDigitChar d = true
              · rw [if_pos hd2] at hc1
                obtain ⟨hm, hdg⟩ := jR2 c hc1
                exact ⟨List.mem_cons_of_mem a (List.mem_cons_of_mem d hm), hdg⟩
              · rw [if_neg hd2] at hc1
                rcases List.mem_cons.mp hc1 with rfl | hc1
                · refine ⟨List.mem_cons_self _ _, ?_⟩
                  rcases hsl with rfl | rfl <;> decide
                · rcases List.mem_cons.mp hc1 with rfl | hc1
                  · refine ⟨List.mem_cons_of_mem a (List.mem_cons_self _ _), ?_⟩
                    cases hx : isDigitChar c
                    · rfl
                    · exact absurd hx hd2
                  · obtain ⟨hm, hdg⟩ := jM c hc1
                    exact ⟨List.mem_cons_of_mem a (List.mem_cons_of_mem d hm), hdg⟩
            · rw [if_neg hsl] at hc1
              rcases List.mem_cons.mp hc1 with rfl | hc1
              · refine ⟨List.mem_cons_self _ _, ?_⟩
                cases hx : isDigitChar c
                · rfl
                · exact absurd hx hd
              · obtain ⟨hm, hdg⟩ := ihM c hc1
                exact ⟨List.mem_cons_of_mem a hm, hdg⟩
      · intro c hc
        simp only [sdRun2] at hc
        by_cases hd : isDigitChar a = true
        · rw [if_pos hd] at hc
          obtain ⟨hm, hdg⟩ := ihR2 c hc
          exact ⟨List.mem_cons_of_mem a hm, hdg⟩
        · rw [if_neg hd] at hc
          rcases List.mem_cons.mp hc with rfl | hc
          · refine ⟨List.mem_cons_self _ _, ?_⟩
            cases hx : isDigitChar c
            · rfl
            · exact absurd hx hd
          · obtain ⟨hm, hdg⟩ := ihM c hc
            exact ⟨List.mem_cons_of_mem a hm, hdg⟩

theorem stripDigits_chars (s : LC) (c : Char) (h : c ∈ stripDigits s) :
    c ∈ s ∧ isDigitChar c = false :=
  (sd_chars s.length s (le_refl _)).1 c h

theorem stripDigits_fix (s : LC) (h : ∀ c ∈ s, isDigitChar c = false) :
    stripDigits s = s := by
  rw [stripDigits]
  induction s with
  | nil => rfl
  | cons a cs ih =>
    rw [sdMain, if_neg (by simp [h a (List.mem_cons_self a cs)]),
      ih (fun c hc => h c (List.mem_cons_of_mem a hc))]

theorem wwrGo_subset (w : LC) (wl : Char) :
    ∀ (f : ℕ) (prev : Option Char) (s : LC) (c : Char), c ∈ wwrGo w wl f prev s → c ∈ s := by
  intro f
  induction f with
  | zero =>
    intro prev s c hc
    cases s with
    | nil => simp [wwrGo] at hc
    | cons a cs => simpa [wwrGo] using hc
  | succ f ih =>
    intro prev s c hc
    cases s with
    | nil => simp [wwrGo] at hc
    | cons a cs =>
      simp only [wwrGo] at hc
      by_cases hh : wwHit w prev (a :: cs) = true
      · rw [if_pos hh] at hc
        exact List.mem_cons_of_mem a (List.drop_subset _ cs (ih _ _ c hc))
      · rw [if_neg hh] at hc
        rcases List.mem_cons.mp hc with rfl | hc
        · exact List.mem_cons_self _ _
        · exact List.mem_cons_of_mem a (ih _ _ c hc)

theorem wwr_subset (w s : LC) (c : Char) (h : c ∈ wwr w s) : c ∈ s := by
  rw [wwr] at h
  by_cases he : w.isEmpty = true
  · rwa [if_pos he] at h
  · rw [if_neg he] at h
    exact wwrGo_subset w _ _ _ s c h

theorem wwrGo_fix (w : LC) (wl : Char) :
    ∀ (f : ℕ) (prev : Option Char) (s : LC), hasWWGo w prev s = false →
      wwrGo w wl f prev s = s := by
  intro f
  induction f with
  | zero =>
    intro prev s _
    cases s <;> rfl
  | succ f ih =>
    intro prev s hns
    cases s with
    | nil => rfl
    | cons a cs =>
      rw [hasWWGo] at hns
      have hh : wwHit w prev (a :: cs) = false := by
        cases hx : wwHit w prev (a :: cs)
        · rfl
        · rw [hx] at hns
          simp at hns
      have hrest : hasWWGo w (some a) cs = false := by
        cases hx : hasWWGo w (some a) cs
        · rfl
        · rw [hx] at hns
          simp at hns
      rw [wwrGo, if_neg (by simp [hh]), ih (some a) cs hrest]

theorem wwr_fix (w s : LC) (h : hasWW w s = false) : wwr w s = s := by
  rw [wwr]
  by_cases he : w.isEmpty = true
  · rw [if_pos he]
  · rw [if_neg he]
    exact wwrGo_fix w _ s.length Option.none s h

theorem raGo_chars (pat rep : LC) :
    ∀ (f : ℕ) (s : LC) (c : Char), c ∈ raGo pat rep f s → c ∈ s ∨ c ∈ rep := by
  intro f
  induction f with
  | zero =>
    intro s c hc
    cases s with
    | nil => simpa [raGo] using Or.inl hc
    | cons a cs => exact Or.inl (by simpa [raGo] using hc)
  | succ f ih =>
    intro s c hc
    cases s with
    | nil => simp [raGo] at hc
    | cons a cs =>
      simp only [raGo] at hc
      by_cases hh : (matchAt pat (a :: cs) && !pat.isEmpty) = true
      · rw [if_pos hh] at hc
        rcases List.mem_append.mp hc with hc | hc
        · exact Or.inr hc
        · rcases ih _ c hc with hc | hc
          · exact Or.inl (List.mem_cons_of_mem a (List.drop_subset _ cs hc))
          · exact Or.inr hc
      · rw [if_neg hh] at hc
        rcases List.mem_cons.mp hc with rfl | hc
        · exact Or.inl (List.mem_cons_self _ _)
        · rcases ih _ c hc with hc | hc
          · exact Or.inl (List.mem_cons_of_mem a hc)
          · exact Or.inr hc

theorem replaceAll_chars (pat rep s : LC) (c : Char) (h : c ∈ replaceAll pat rep s) :
    c ∈ s ∨ c ∈ rep :=
  raGo_chars pat rep s.length s c h

theorem substStep_fix (s : LC) (kv : LC × LC) (h : hasSub kv.1 s = false) :
    substStep s kv = s := by
  rw [substStep, if_neg (by simp [h])]

theorem bpGo_subset : ∀ (f : ℕ) (s : LC) (c : Char), c ∈ bpGo f s → c ∈ s := by
  intro f
  induction f with
  | zero =>
    intro s c hc
    cases s with
    | nil => simp [bpGo] at hc
    | cons a cs => simpa [bpGo] using hc
  | succ f ih =>
    intro s c hc
    cases s with
    | nil => simp [bpGo] at hc
    | cons a cs =>
      simp only [bpGo] at hc
      by_cases h1 : matchAt BP1 (a :: cs) = true
      · rw [if_pos h1] at hc
        exact List.mem_cons_of_mem a (List.drop_subset _ cs (ih _ c hc))
      · rw [if_neg h1] at hc
        by_cases h2 : matchAt BP2 (a :: cs) = true
        · rw [if_pos h2] at hc
          exact List.mem_cons_of_mem a (List.drop_subset _ cs (ih _ c hc))
        · rw [if_neg h2] at hc
          by_cases h3 : matchAt BP3 (a :: cs) = true
          · rw [if_pos h3] at hc
            exact List.mem_cons_of_mem a (List.drop_subset _ cs (ih _ c hc))
          · rw [if_neg h3] at hc
            by_cases h4 : matchAt BP4 (a :: cs) = true
            · rw [if_pos h4] at hc
              exact List.mem_cons_of_mem a (List.drop_subset _ cs (ih _ c hc))
            · rw [if_neg h4] at hc
              rcases List.mem_cons.mp hc with rfl | hc
              · exact List.mem_cons_self _ _
              · exact List.mem_cons_of_mem a (ih _ c hc)

theorem hasSub_cons_false {pat : LC} {a : Char} {cs : LC}
    (h : hasSub pat (a :: cs) = false) :
    matchAt pat (a :: cs) = false ∧ hasSub pat cs = false := by
  rw [hasSub] at h
  constructor
  · cases hx : matchAt pat (a :: cs)
    · rfl
    · rw [hx] at h
      simp at h
  · cases hx : hasSub pat cs
    · rfl
    · rw [hx] at h
      simp at h

theorem bpGo_fix : ∀ (f : ℕ) (s : LC), hasSub BP1 s = false → hasSub BP2 s = false →
    hasSub BP3 s = false → hasSub BP4 s = false → bpGo f s = s := by
  intro f
  induction f with
  | zero =>
    intro s _ _ _ _
    cases s <;> rfl
  | succ f ih =>
    intro s h1 h2 h3 h4
    cases s with
    | nil => rfl
    | cons a cs =>
      obtain ⟨hm1, ht1⟩ := hasSub_cons_false h1
      obtain ⟨hm2, ht2⟩ := hasSub_cons_false h2
      obtain ⟨hm3, ht3⟩ := hasSub_cons_false h3
      obtain ⟨hm4, ht4⟩ := hasSub_cons_false h4
      rw [bpGo, if_neg (by simp [hm1]), if_neg (by simp [hm2]), if_neg (by simp [hm3]),
        if_neg (by simp [hm4]), ih cs ht1 ht2 ht3 ht4]

theorem bpStrip_fix (s : LC) (h1 : hasSub BP1 s = false) (h2 : hasSub BP2 s = false)
    (h3 : hasSub BP3 s = false) (h4 : hasSub BP4 s = false) : bpStrip s = s :=
  bpGo_fix s.length s h1 h2 h3 h4

theorem foldl_wwr_subset : ∀ (L : List LC) (s : LC) (c : Char),
    c ∈ L.foldl (fun t u => wwr u t) s → c ∈ s := by
  intro L
  induction L with
  | nil => exact fun s c h => h
  | cons u us ih =>
    intro s c hc
    simp only [List.foldl_cons] at hc
    exact wwr_subset u s c (ih (wwr u s) c hc)

theorem foldl_subst_chars : ∀ (L : List (LC × LC)) (s : LC),
    (∀ kv ∈ L, ∀ c ∈ kv.2, goodCore c = true) → (∀ c ∈ s, goodCore c = true) →
    ∀ c ∈ L.foldl substStep s, goodCore c = true := by
  intro L
  induction L with
  | nil => exact fun s _ hs => hs
  | cons kv kvs ih =>
    intro s hrep hs c hc
    simp only [List.foldl_cons] at hc
    refine ih (substStep s kv) (fun p hp => hrep p (List.mem_cons_of_mem kv hp)) ?_ c hc
    intro c' hc'
    rw [substStep] at hc'
    by_cases hg : hasSub kv.1 s = true
    · rw [if_pos hg] at hc'
      rcases replaceAll_chars kv.1 kv.2 s c' hc' with h | h
      · exact hs c' h
      · exact hrep kv (List.mem_cons_self _ _) c' h
    · rw [if_neg hg] at hc'
      exact hs c' hc'

theorem wsOnlySpace_cwGo : ∀ (b : Bool) (s : LC), wsOnlySpace (cwGo b s) = true := by
  intro b s
  induction s generalizing b with
  | nil => rfl
  | cons a cs ih =>
    simp only [cwGo]
    by_cases hw : isWsChar a = true
    · rw [if_pos hw]
      cases b with
      | true =>
        rw [if_pos rfl]
        exact ih true
      | false =>
        rw [if_neg (by simp)]
        simp only [wsOnlySpace, List.all_cons]
        refine (Bool.and_eq_true _ _).mpr ⟨by decide, ?_⟩
        exact ih true
    · rw [if_neg hw]
      simp only [wsOnlySpace, List.all_cons]
      refine (Bool.and_eq_true _ _).mpr ⟨?_, ih false⟩
      have : isWsChar a = false := by
        cases hx : isWsChar a
        · rfl
        · exact absurd hx hw
      simp [this]

theorem headNotWs_cwGo_true : ∀ s : LC, headNotWs (cwGo true s) = true := by
  intro s
  induction s with
  | nil => rfl
  | cons a cs ih =>
    simp only [cwGo]
    by_cases hw : isWsChar a = true
    · rw [if_pos hw, if_pos trivial]
      exact ih
    · rw [if_neg hw]
      simp only [headNotWs]
      cases hx : isWsChar a
      · rfl
      · exact absurd hx hw

theorem ndw_cons_head (a : Char) (l : LC) (h1 : headNotWs l = true)
    (h2 : noDoubleWs l = true) : noDoubleWs (a :: l) = true := by
  cases l with
  | nil => rfl
  | cons b t =>
    simp only [noDoubleWs]
    have hb : isWsChar b = false := by
      simp only [headNotWs] at h1
      cases hx : isWsChar b
      · rfl
      · rw [hx] at h1
        cases h1
    simp [hb, h2]

theorem ndw_cons_nonws (a : Char) (l : LC) (h1 : isWsChar a = false)
    (h2 : noDoubleWs l = true) : noDoubleWs (a :: l) = true := by
  cases l with
  | nil => rfl
  | cons b t =>
    simp only [noDoubleWs]
    simp [h1, h2]

theorem noDoubleWs_cwGo : ∀ (b : Bool) (s : LC), noDoubleWs (cwGo b s) = true := by
  intro b s
  induction s generalizing b with
  | nil => rfl
  | cons a cs ih =>
    simp only [cwGo]
    by_cases hw : isWsChar a = true
    · rw [if_pos hw]
      cases b with
      | true =>
        rw [if_pos rfl]
        exact ih true
      | false =>
        rw [if_neg (by simp)]
        exact ndw_cons_head ' ' _ (headNotWs_cwGo_true cs) (ih true)
    · rw [if_neg hw]
      refine ndw_cons_nonws a _ ?_ (ih false)
      cases hx : isWsChar a
      · rfl
      · exact absurd hx hw

theorem noDoubleWs_tail (a : Char) (l : LC) (h : noDoubleWs (a :: l) = true) :
    noDoubleWs l = true := by
  cases l with
  | nil => rfl
  | cons b t =>
    simp only [noDoubleWs, Bool.and_eq_true] at h
    exact h.2

theorem noDoubleWs_dropWhile (p : Char → Bool) :
    ∀ s : LC, noDoubleWs s = true → noDoubleWs (s.dropWhile p) = true := by
  intro s
  induction s with
  | nil => exact fun h => h
  | cons a cs ih =>
    intro h
    rw [List.dropWhile_cons]
    by_cases hp : p a = true
    · rw [if_pos hp]
      exact ih (noDoubleWs_tail a cs h)
    · rw [if_neg hp]
      exact h

theorem dropTrailWs_shape (c : Char) (cs : LC) :
    dropTrailWs (c :: cs) = [] ∨ dropTrailWs (c :: cs) = c :: dropTrailWs cs := by
  simp only [dropTrailWs]
  by_cases hg : ((dropTrailWs cs).isEmpty && isWsChar c) = true
  · rw [if_pos hg]
    exact Or.inl rfl
  · rw [if_neg hg]
    exact Or.inr rfl

theorem noDoubleWs_dropTrail : ∀ s : LC, noDoubleWs s = true →
    noDoubleWs (dropTrailWs s) = true := by
  intro s
  induction s with
  | nil => exact fun h => h
  | cons a cs ih =>
    intro h
    rcases dropTrailWs_shape a cs with he | he
    · rw [he]
      rfl
    · rw [he]
      have hcs := ih (noDoubleWs_tail a cs h)
      cases cs with
      | nil => rfl
      | cons b t =>
        rcases dropTrailWs_shape b t with he2 | he2
        · rw [he2]
          rfl
        · rw [he2]
          rw [he2] at hcs
          simp only [noDoubleWs, Bool.and_eq_true] at h ⊢
          exact ⟨h.1, by simpa [he2] using hcs⟩

theorem headNotWs_dropWhile : ∀ s : LC, headNotWs (s.dropWhile isWsChar) = true := by
  intro s
  induction s with
  | nil => rfl
  | cons a cs ih =>
    rw [List.dropWhile_cons]
    by_cases hp : isWsChar a = true
    · rw [if_pos hp]
      exact ih
    · rw [if_neg hp]
      simp only [headNotWs]
      cases hx : isWsChar a
      · rfl
      · exact absurd hx hp

theorem headNotWs_dropTrail (s : LC) (h : headNotWs s = true) :
    headNotWs (dropTrailWs s) = true := by
  cases s with
  | nil => rfl
  | cons a cs =>
    rcases dropTrailWs_shape a cs with he | he
    · rw [he]
      rfl
    · rw [he]
      exact h

theorem lastNotWs_dropTrail : ∀ s : LC, lastNotWs (dropTrailWs s) = true := by
  intro s
  induction s with
  | nil => rfl
  | cons a cs ih =>
    simp only [dropTrailWs]
    by_cases hg : ((dropTrailWs cs).isEmpty && isWsChar a) = true
    · rw [if_pos hg]
      rfl
    · rw [if_neg hg]
      rcases hr : dropTrailWs cs with _ | ⟨b, t⟩
      · have hwa : isWsChar a = false := by
          cases hx : isWsChar a
          · rfl
          · exfalso
            apply hg
            rw [hr, hx]
            rfl
        simp only [lastNotWs, hwa]
        rfl
      · rw [← hr]
        have : lastNotWs (a :: dropTrailWs cs) = lastNotWs (dropTrailWs cs) := by
          rw [hr]
          rfl
        rw [this]
        exact ih

theorem all_of_subset (p : Char → Bool) (s t : LC) (hsub : ∀ c ∈ t, c ∈ s)
    (h : s.all p = true) : t.all p = true := by
  rw [List.all_eq_true] at h ⊢
  exact fun c hc => h c (hsub c hc)

theorem cwGo_fix : ∀ s : LC, wsOnlySpace s = true → noDoubleWs s = true →
    (cwGo false s = s ∧ (headNotWs s = true → cwGo true s = s)) := by
  intro s
  induction s with
  | nil => exact fun _ _ => ⟨rfl, fun _ => rfl⟩
  | cons a cs ih =>
    intro hws hnd
    have hwcs : wsOnlySpace cs = true := by
      simp only [wsOnlySpace, List.all_cons, Bool.and_eq_true] at hws
      exact hws.2
    have hndcs : noDoubleWs cs = true := noDoubleWs_tail a cs hnd
    obtain ⟨ih1, ih2⟩ := ih hwcs hndcs
    by_cases hw : isWsChar a = true
    · have ha : a = ' ' := by
        simp only [wsOnlySpace, List.all_cons, Bool.and_eq_true] at hws
        have := hws.1
        rw [hw] at this
        simpa using this
      have hhead : headNotWs cs = true := by
        cases cs with
        | nil => rfl
        | cons b t =>
          simp only [noDoubleWs, Bool.and_eq_true] at hnd
          have := hnd.1
          simp only [headNotWs]
          cases hx : isWsChar b
          · rfl
          · rw [hw, hx] at this
            cases this
      constructor
      · simp only [cwGo, if_pos hw, if_neg (by simp : ¬(false = true))]
        rw [ih2 hhead, ha]
      · intro hh
        exfalso
        simp only [headNotWs] at hh
        rw [hw] at hh
        cases hh
    · have hwa : isWsChar a = false := by
        cases hx : isWsChar a
        · rfl
        · exact absurd hx hw
      constructor
      · simp only [cwGo, if_neg hw]
        rw [ih1]
      · intro _
        simp only [cwGo, if_neg hw]
        rw [ih1]

theorem collapseWs_fix (s : LC) (h1 : wsOnlySpace s = true) (h2 : noDoubleWs s = true) :
    collapseWs s = s :=
  (cwGo_fix s h1 h2).1

theorem dropWhile_fix (s : LC) (h : headNotWs s = true) : s.dropWhile isWsChar = s := by
  cases s with
  | nil => rfl
  | cons a cs =>
    rw [List.dropWhile_cons, if_neg]
    simp only [headNotWs] at h
    cases hx : isWsChar a
    · simp
    · rw [hx] at h
      cases h

theorem dropTrail_fix : ∀ s : LC, lastNotWs s = true → dropTrailWs s = s := by
  intro s
  induction s with
  | nil => exact fun _ => rfl
  | cons a cs ih =>
    intro h
    cases cs with
    | nil =>
      simp only [dropTrailWs, List.isEmpty_nil]
      simp only [lastNotWs] at h
      rw [if_neg]
      intro hcon
      rw [Bool.true_and] at hcon
      rw [hcon] at h
      cases h
    | cons b t =>
      have hlast : lastNotWs (b :: t) = true := h
      have hr := ih hlast
      show (if ((dropTrailWs (b :: t)).isEmpty && isWsChar a) = true then []
          else a :: dropTrailWs (b :: t)) = a :: b :: t
      rw [hr, if_neg (by simp)]

theorem stripWs_fix (s : LC) (h1 : headNotWs s = true) (h2 : lastNotWs s = true) :
    stripWs s = s := by
  rw [stripWs, dropWhile_fix s h1, dropTrail_fix s h2]

theorem cleanText_fix (s : LC) (hne : s.isEmpty = false)
    (hg : ∀ c ∈ s, goodCore c = true) (hws : wsOnlySpace s = true)
    (hnd : noDoubleWs s = true) (hhd : headNotWs s = true) (hlt : lastNotWs s = true) :
    cleanText s = s := by
  rw [cleanText, if_neg (by simp [hne])]
  have hmap1 : s.map pyLower = s := by
    have : ∀ c ∈ s, pyLower c = c := by
      intro c hc
      have hup := (goodCore_spec c (hg c hc)).1
      simp only [pyLower]
      rw [if_neg hup]
    rw [List.map_congr_left this]
    exact List.map_id' s
  rw [hmap1]
  have hfil : s.filter (fun c => decide (c.toNat < 128)) = s := by
    rw [List.filter_eq_self]
    intro c hc
    have := (goodCore_spec c (hg c hc)).2.1
    simpa using this
  rw [hfil]
  have hmap2 : s.map (fun c => if isPunctNH c then ' ' else c) = s := by
    have : ∀ c ∈ s, (if isPunctNH c then ' ' else c) = c := by
      intro c hc
      have hpu := (goodCore_spec c (hg c hc)).2.2.1
      rw [if_neg (by simp [hpu])]
    rw [List.map_congr_left this]
    exact List.map_id' s
  rw [hmap2, collapseWs_fix s hws hnd, stripWs_fix s hhd hlt]

theorem bpStrip_subset (s : LC) (c : Char) (h : c ∈ bpStrip s) : c ∈ s :=
  bpGo_subset s.length s c h

theorem wsOnlySpace_of_subset (s t : LC) (hsub : ∀ c ∈ t, c ∈ s)
    (h : wsOnlySpace s = true) : wsOnlySpace t = true := by
  simp only [wsOnlySpace, List.all_eq_true] at h ⊢
  exact fun c hc => h c (hsub c hc)

theorem norm_chars (x : LC) : ∀ c ∈ normalizeIngredient x, goodCore c = true := by
  intro c hc
  simp only [normalizeIngredient] at hc
  by_cases hne : x.isEmpty = true
  · rw [if_pos hne] at hc
    simp at hc
  · rw [if_neg hne] at hc
    have g2 : ∀ c' ∈ stripDigits (cleanText x), goodCore c' = true := by
      intro c' hc'
      obtain ⟨hmem, hdig⟩ := stripDigits_chars (cleanText x) c' hc'
      obtain ⟨hup, hlt, hpu⟩ := cleanText_chars x c' hmem
      exact goodCore_intro c' hup hlt hpu hdig
    have hc1 := stripWs_chars _ c hc
    rcases cwGo_chars false _ c hc1 with hc2 | rfl
    · have hc3 := bpStrip_subset _ c hc2
      have hc4 := foldl_wwr_subset COOKING _ c hc3
      exact foldl_subst_chars SUBS _ (by decide)
        (fun c' hc' => g2 c' (foldl_wwr_subset UNITS _ c' hc')) c hc4
    · decide

theorem norm_tidy (x : LC) : wsOnlySpace (normalizeIngredient x) = true ∧
    noDoubleWs (normalizeIngredient x) = true ∧ headNotWs (normalizeIngredient x) = true ∧
    lastNotWs (normalizeIngredient x) = true := by
  simp only [normalizeIngredient]
  by_cases hne : x.isEmpty = true
  · rw [if_pos hne]
    exact ⟨rfl, rfl, rfl, rfl⟩
  · rw [if_neg hne]
    refine ⟨?_, ?_, ?_, ?_⟩
    · exact wsOnlySpace_of_subset _ _ (fun c hc => stripWs_chars _ c hc)
        (wsOnlySpace_cwGo false _)
    · simp only [stripWs]
      exact noDoubleWs_dropTrail _ (noDoubleWs_dropWhile isWsChar _ (noDoubleWs_cwGo false _))
    · simp only [stripWs]
      exact headNotWs_dropTrail _ (headNotWs_dropWhile _)
    · simp only [stripWs]
      exact lastNotWs_dropTrail _

/-- C2 counterexample: `normalize_ingredient` is NOT idempotent.  On
`"red peppers"` the substitution `red pepper → bell pepper` fires inside the
word, yielding `"bell peppers"`; a second pass then applies
`bell peppers → bell pepper`.  The first output is not a fixed point. -/
theorem claim2_counterexample :
    normalizeIngredient (("red peppers").data) = ("bell peppers").data ∧
    normalizeIngredient (normalizeIngredient (("red peppers").data)) = ("bell pepper").data ∧
    normalizeIngredient (normalizeIngredient (("red peppers").data)) ≠
      normalizeIngredient (("red peppers").data) := by decide

/-- C2 (amended): `normalize_ingredient` is idempotent exactly on the inputs
whose normal form re-triggers no vocabulary rule: if no substitution-table key
occurs as a substring of the output, no unit and no cooking adjective occurs
as a whole word, and no boilerplate phrase occurs as a substring, then the
output is a fixed point.  (The cleaning, quantity-stripping and whitespace
stages are always idempotent — the output has no upper-case, non-ASCII,
punctuation or digit characters and is whitespace-tidy — so only the
vocabulary stages can break idempotence, as in the counterexample.) -/
theorem claim2_amended (x : LC)
    (h1 : ∀ kv ∈ SUBS, hasSub kv.1 (normalizeIngredient x) = false)
    (h2 : ∀ u ∈ UNITS, hasWW u (normalizeIngredient x) = false)
    (h3 : ∀ t ∈ COOKING, hasWW t (normalizeIngredient x) = false)
    (h4 : hasSub BP1 (normalizeIngredient x) = false ∧
      hasSub BP2 (normalizeIngredient x) = false ∧
      hasSub BP3 (normalizeIngredient x) = false ∧
      hasSub BP4 (normalizeIngredient x) = false) :
    normalizeIngredient (normalizeIngredient x) = normalizeIngredient x := by
  have hgc := norm_chars x
  obtain ⟨ht1, ht2, ht3, ht4⟩ := norm_tidy x
  by_cases hy : (normalizeIngredient x).isEmpty = true
  · have hnil : normalizeIngredient x = [] := by
      cases hxx : normalizeIngredient x with
      | nil => rfl
      | cons a t =>
        rw [hxx] at hy
        cases hy
    rw [hnil]
    rfl
  · have hyf : (normalizeIngredient x).isEmpty = false := by
      cases hxx : (normalizeIngredient x).isEmpty
      · rfl
      · exact absurd hxx hy
    have e1 : cleanText (normalizeIngredient x) = normalizeIngredient x :=
      cleanText_fix _ hyf hgc ht1 ht2 ht3 ht4
    have e2 : stripDigits (normalizeIngredient x) = normalizeIngredient x :=
      stripDigits_fix _ (fun c hc => (goodCore_spec c (hgc c hc)).2.2.2)
    have e3 : UNITS.foldl (fun t u => wwr u t) (normalizeIngredient x) =
        normalizeIngredient x :=
      foldl_fix _ _ _ (fun u hu => wwr_fix u _ (h2 u hu))
    have e4 : SUBS.foldl substStep (normalizeIngredient x) = normalizeIngredient x :=
      foldl_fix _ _ _ (fun kv hkv => substStep_fix _ kv (h1 kv hkv))
    have e5 : COOKING.foldl (fun t u => wwr u t) (normalizeIngredient x) =
        normalizeIngredient x :=
      foldl_fix _ _ _ (fun u hu => wwr_fix u _ (h3 u hu))
    have e6 : bpStrip (normalizeIngredient x) = normalizeIngredient x :=
      bpStrip_fix _ h4.1 h4.2.1 h4.2.2.1 h4.2.2.2
    have e7 : stripWs (collapseWs (normalizeIngredient x)) = normalizeIngredient x := by
      rw [collapseWs_fix _ ht1 ht2, stripWs_fix _ ht3 ht4]
    generalize hgen : normalizeIngredient x = y at hyf e1 e2 e3 e4 e5 e6 e7 ⊢
    simp only [normalizeIngredient, hyf, Bool.false_eq_true, if_false]
    rw [e1, e2, e3, e4, e5, e6, e7]

/-- Witness for C2 at `"basil"`: its normal form re-triggers no vocabulary
rule, so normalization is idempotent there. -/
theorem claim2_witness :
    normalizeIngredient (normalizeIngredient (("basil").data)) =
      normalizeIngredient (("basil").data) :=
  claim2_amended (("basil").data) (by decide) (by decide) (by decide) (by decide)

end RG
